import Mathlib

/-!
Shallow embedding of `src/quoridor.py` (the Quoridor board-game engine) and
proofs about it.  Pure functions of the source become Lean functions; the
mutable `Quoridor` object becomes an explicit state record that every
mutating method threads through; Python exceptions become `Option` failure;
the unbounded recursion of the two flood fills becomes fuel-based recursion
with a fuel that is proved sufficient.  A second, list-based embedding of
`is_blocking` at the end models Python list indexing (out-of-bounds raises)
for the claims about non-square boards.
-/

/-- `Compass` from the source: the four sides of the board. -/
inductive Compass where
  | north
  | west
  | south
  | east
deriving DecidableEq, Repr

/-- `Compass.oppo` from the source: the diametrically opposite side. -/
def Compass.oppo : Compass → Compass
  | .north => .south
  | .west => .east
  | .south => .north
  | .east => .west

/-- `Compass.cells` from the source: the ordered list of boundary cells
`(col, row)` of a side on a `w × h` board. -/
def Compass.cells : Compass → Nat → Nat → List (Nat × Nat)
  | .north, w, h => (List.range w).map fun col => (col, h - 1)
  | .west, _, h => (List.range h).map fun row => (0, row)
  | .south, w, _ => (List.range w).map fun col => (col, 0)
  | .east, w, h => (List.range h).map fun row => (w - 1, row)

/-- `Orient` from the source: fence orientations. -/
inductive Orient where
  | vert
  | horz
deriving DecidableEq, Repr

/-- `Pawn` from the source.  `num_fences` is a Python int, so `Int` here
(the unvalidated path may drive it negative). -/
structure Pawn where
  side : Compass
  pos : Nat × Nat
  num_fences : Int := 10
  win : Bool := false
deriving DecidableEq, Repr

/-- The connectivity-label array (`cell_tags` in the source), wrapped in a
structure so that a partially built array is a first-class value. -/
structure Tags where
  app : Nat × Nat → Option Nat

/-- Writing one label into the array (`cells[c][r] = tag`). -/
def Tags.upd (t : Tags) (p : Nat × Nat) (v : Option Nat) : Tags :=
  ⟨Function.update t.app p v⟩

/-- The mutable `Quoridor` object as an explicit state.  `cells` stores the
index (into `pawns`) of the occupying pawn, mirroring the Python array of
pawn references; `cell_tags` is the lazily computed connectivity-label
cache (`_cell_tags`); `curr_pawn` is `_curr_pawn`. -/
@[ext]
structure Quoridor where
  height : Nat
  width : Nat
  pawns : List Pawn
  curr_pawn : Nat
  cells : Nat × Nat → Option Nat
  cell_tags : Option Tags
  grid : Nat × Nat → Option Orient
  finished : Bool

/-- `Quoridor.default_pos` from the source.  It only reads `self.width`
and `self.height`, so it is embedded as a function of the two dimensions.
Python `int(x/2)` on non-negative ints is `Nat` division. -/
def default_pos (width height : Nat) : Compass → Nat × Nat
  | .north => ((width - 1) / 2, height - 1)
  | .south => (width / 2, 0)
  | .west => (0, (height - 1) / 2)
  | .east => (width - 1, height / 2)

/-- The loop in `Quoridor.__init__` that writes each pawn into `self.cells`;
later pawns overwrite earlier ones, as in the Python loop. -/
def place_pawns (pawns : List Pawn) : Nat × Nat → Option Nat :=
  pawns.enum.foldl (fun acc ip => Function.update acc ip.2.pos (some ip.1)) fun _ => none

/-- `Quoridor.__init__` with the default `pawns=None, def_pos=None`
arguments (two pawns, SOUTH then NORTH, at their default positions). -/
def Quoridor.init (height width : Nat) : Quoridor :=
  let pawns : List Pawn := [{ side := .south, pos := default_pos width height .south },
                            { side := .north, pos := default_pos width height .north }]
  { height := height
    width := width
    pawns := pawns
    curr_pawn := 0
    cells := place_pawns pawns
    cell_tags := none
    grid := fun _ => none
    finished := false }

/-- `Quoridor.next_pawn` from the source (the returned pawn is unused by
all callers, so only the state update is kept). -/
def Quoridor.next_pawn (g : Quoridor) : Quoridor :=
  { g with curr_pawn := (g.curr_pawn + 1) % g.pawns.length }

/-- The guard of the `c > 0` branch shared by `_fill_cells` and
`move_region`: the step from `(c, r)` to `(c-1, r)` is open. -/
def openW (grid : Nat × Nat → Option Orient) (h c r : Nat) : Prop :=
  0 < c ∧ (r = 0 ∨ grid (c - 1, r - 1) ≠ some Orient.vert) ∧
    (r = h - 1 ∨ grid (c - 1, r) ≠ some Orient.vert)

/-- The guard of the `c < w-1` branch: the step to `(c+1, r)` is open. -/
def openE (grid : Nat × Nat → Option Orient) (w h c r : Nat) : Prop :=
  c < w - 1 ∧ (r = 0 ∨ grid (c, r - 1) ≠ some Orient.vert) ∧
    (r = h - 1 ∨ grid (c, r) ≠ some Orient.vert)

/-- The guard of the `r > 0` branch: the step to `(c, r-1)` is open. -/
def openS (grid : Nat × Nat → Option Orient) (w c r : Nat) : Prop :=
  0 < r ∧ (c = 0 ∨ grid (c - 1, r - 1) ≠ some Orient.horz) ∧
    (c = w - 1 ∨ grid (c, r - 1) ≠ some Orient.horz)

/-- The guard of the `r < h-1` branch: the step to `(c, r+1)` is open. -/
def openN (grid : Nat × Nat → Option Orient) (w h c r : Nat) : Prop :=
  r < h - 1 ∧ (c = 0 ∨ grid (c - 1, r) ≠ some Orient.horz) ∧
    (c = w - 1 ∨ grid (c, r) ≠ some Orient.horz)

instance (grid : Nat × Nat → Option Orient) (h c r : Nat) : Decidable (openW grid h c r) := by
  unfold openW; infer_instance

instance (grid : Nat × Nat → Option Orient) (w h c r : Nat) : Decidable (openE grid w h c r) := by
  unfold openE; infer_instance

instance (grid : Nat × Nat → Option Orient) (w c r : Nat) : Decidable (openS grid w c r) := by
  unfold openS; infer_instance

instance (grid : Nat × Nat → Option Orient) (w h c r : Nat) : Decidable (openN grid w h c r) := by
  unfold openN; infer_instance

/-- The four neighbour candidates explored, in the source's order
(west, east, south, north), each guarded by its fence conditions. -/
def nbrs (grid : Nat × Nat → Option Orient) (w h : Nat) (p : Nat × Nat) : List (Nat × Nat) :=
  (if openW grid h p.1 p.2 then [(p.1 - 1, p.2)] else []) ++
  (if openE grid w h p.1 p.2 then [(p.1 + 1, p.2)] else []) ++
  (if openS grid w p.1 p.2 then [(p.1, p.2 - 1)] else []) ++
  (if openN grid w h p.1 p.2 then [(p.1, p.2 + 1)] else [])

/-- One-step adjacency used by both flood fills: the move from `a` to `b`
is one of the four guarded steps. -/
def Adj (grid : Nat × Nat → Option Orient) (w h : Nat) (a b : Nat × Nat) : Prop :=
  (openW grid h a.1 a.2 ∧ b = (a.1 - 1, a.2)) ∨
  (openE grid w h a.1 a.2 ∧ b = (a.1 + 1, a.2)) ∨
  (openS grid w a.1 a.2 ∧ b = (a.1, a.2 - 1)) ∨
  (openN grid w h a.1 a.2 ∧ b = (a.1, a.2 + 1))

instance (grid : Nat × Nat → Option Orient) (w h : Nat) (a b : Nat × Nat) :
    Decidable (Adj grid w h a b) := by
  unfold Adj; infer_instance

/-- `Quoridor._fill_cells` from the source, as fuel-based recursion.
`w` and `h` are what the source computes as `len(cells)` and
`len(cells[0])`; the caller (`compute_tags`) passes them exactly as the
source's allocation dictates.  Python sets `cells[c][r] = tag` and then
recurses into each open neighbour in order, threading the mutated array. -/
def fill_cells (grid : Nat × Nat → Option Orient) (w h : Nat) :
    Nat → Tags → Nat × Nat → Nat → Tags
  | 0, cls, _, _ => cls
  | fuel + 1, cls, p, tag =>
    if (cls.app p).isSome then cls
    else
      (nbrs grid w h p).foldl (fun cs q => fill_cells grid w h fuel cs q tag)
        (cls.upd p (some tag))

/-- The column-major enumeration `for col in range(w): for row in range(h)`
used by the labelling loop of `is_blocking`. -/
def all_pos (w h : Nat) : List (Nat × Nat) :=
  (List.range w).flatMap fun col => (List.range h).map fun row => (col, row)

/-- One iteration of the labelling loop of `is_blocking`: skip an already
labelled cell, otherwise flood-fill from it with the fresh tag and bump
the tag counter.  The source allocates `cell_tags` as `h` rows of length
`w` but indexes it `[col][row]`, so `_fill_cells` sees `len(cells) = h`
and `len(cells[0]) = w`: the dimensions are passed to `fill_cells` in
that (transposed) order.  The fuel `h*w + 1` is proved sufficient
below. -/
def tag_step (grid : Nat × Nat → Option Orient) (w h : Nat) (st : Tags × Nat)
    (pos : Nat × Nat) : Tags × Nat :=
  if (st.1.app pos).isSome then st
  else (fill_cells grid h w (h * w + 1) st.1 pos st.2, st.2 + 1)

/-- The cache-miss branch of `Quoridor.is_blocking`: allocate an
all-`None` label array and run `tag_step` over every cell in the loop's
column-major order. -/
def compute_tags (grid : Nat × Nat → Option Orient) (w h : Nat) : Tags :=
  ((all_pos w h).foldl (tag_step grid w h) ((⟨fun _ => none⟩ : Tags), 0)).1

/-- The final `all(tag != ...)` test of `is_blocking`: no cell of the
pawn's goal boundary carries the label of the pawn's own cell. -/
def block_test (tags : Tags) (w h : Nat) (p : Pawn) : Bool :=
  (p.side.oppo.cells w h).all fun dst => decide (tags.app p.pos ≠ tags.app dst)

/-- `Quoridor.is_blocking` from the source: use the cached labels if
present, else compute and cache them, then test the goal boundary. -/
def Quoridor.is_blocking (g : Quoridor) (p : Pawn) : Bool × Quoridor :=
  let tags := g.cell_tags.getD (compute_tags g.grid g.width g.height)
  (block_test tags g.width g.height p, { g with cell_tags := some tags })

/-- The `any(self.is_blocking(pawn) for pawn in self.pawns)` expression of
`can_put_fence`: Python's `any` short-circuits, and each call threads the
(cache-carrying) state. -/
def any_blocking (g : Quoridor) : List Pawn → Bool × Quoridor
  | [] => (false, g)
  | p :: ps =>
    let r := g.is_blocking p
    if r.1 then (true, r.2) else any_blocking r.2 ps

/-- The same-orientation adjacent-slot overlap test of `can_put_fence`:
a HORIZONTAL fence conflicts with a HORIZONTAL fence in the slot directly
left or right, a VERTICAL one with a VERTICAL fence directly below or
above (each neighbour slot guarded by its existence check, as in the
source). -/
def overlaps (g : Quoridor) (coord : Nat × Nat) : Orient → Prop
  | .horz =>
    (0 < coord.1 ∧ g.grid (coord.1 - 1, coord.2) = some Orient.horz) ∨
    (coord.1 < g.width - 2 ∧ g.grid (coord.1 + 1, coord.2) = some Orient.horz)
  | .vert =>
    (0 < coord.2 ∧ g.grid (coord.1, coord.2 - 1) = some Orient.vert) ∨
    (coord.2 < g.height - 2 ∧ g.grid (coord.1, coord.2 + 1) = some Orient.vert)

instance (g : Quoridor) (coord : Nat × Nat) (o : Orient) : Decidable (overlaps g coord o) := by
  cases o <;> (unfold overlaps; infer_instance)

/-- `Quoridor.can_put_fence` from the source: bounds check, occupied-slot
check, same-orientation neighbour overlap check, then the speculative
insert / blocking test / cache clear / retract sequence.  The returned
state is the post-call object state. -/
def Quoridor.can_put_fence (g : Quoridor) (coord : Nat × Nat) (o : Orient) : Bool × Quoridor :=
  if ¬(coord.1 < g.width - 1 ∧ coord.2 < g.height - 1) then (false, g)
  else if (g.grid coord).isSome then (false, g)
  else if overlaps g coord o then (false, g)
  else
    let g1 := { g with grid := Function.update g.grid coord (some o) }
    let r := any_blocking g1 g1.pawns
    (!r.1, { r.2 with cell_tags := none, grid := Function.update r.2.grid coord none })

/-- `Quoridor.put_fence` with the default `player=None, check=True`
arguments: reject on empty fence inventory, reject an illegal placement,
otherwise place the fence, decrement the player's count and advance the
turn.  A raised `ValueError` is `none`. -/
def Quoridor.put_fence (g : Quoridor) (coord : Nat × Nat) (o : Orient) : Option Quoridor :=
  match g.pawns.get? g.curr_pawn with
  | none => none
  | some player =>
    if player.num_fences ≤ 0 then none
    else
      let r := g.can_put_fence coord o
      if r.1 = false then none
      else
        some (Quoridor.next_pawn
          { r.2 with
            grid := Function.update r.2.grid coord (some o)
            pawns := r.2.pawns.set g.curr_pawn { player with num_fences := player.num_fences - 1 } })

/-- The inner `_move_region` closure of `Quoridor.move_region`: `region`
and `visited` are Python sets mutated in place, so both are threaded.
An empty cell is added to the region and not explored; an occupied cell is
marked visited and its open neighbours are explored in order. -/
def Quoridor.move_region_aux (g : Quoridor) :
    Nat → Nat × Nat → List (Nat × Nat) × List (Nat × Nat) → List (Nat × Nat) × List (Nat × Nat)
  | 0, _, st => st
  | fuel + 1, p, st =>
    if p ∈ st.2 then st
    else if g.cells p = none then (st.1.insert p, st.2)
    else
      (nbrs g.grid g.width g.height p).foldl
        (fun st' q => g.move_region_aux fuel q st') (st.1, p :: st.2)

/-- `Quoridor.move_region` from the source, for an explicitly given pawn.
The fuel `width*height + 1` is proved sufficient below. -/
def Quoridor.move_region (g : Quoridor) (p : Pawn) : List (Nat × Nat) :=
  (g.move_region_aux (g.width * g.height + 1) p.pos ([], [])).1

/-- `Quoridor.move` with the default `pawn=None, check=True` arguments:
reject a destination outside the move region, otherwise vacate the source
cell, occupy the destination, set the win/finished flags on a goal-line
arrival (returning without a turn advance), else advance the turn.
Note the source performs no `finished` check here. -/
def Quoridor.move (g : Quoridor) (dst : Nat × Nat) : Option Quoridor :=
  match g.pawns.get? g.curr_pawn with
  | none => none
  | some pawn =>
    if dst ∉ g.move_region pawn then none
    else
      let cells' := Function.update (Function.update g.cells pawn.pos none) dst (some g.curr_pawn)
      if (pawn.side = Compass.north ∧ dst.2 = 0) ∨
          (pawn.side = Compass.south ∧ dst.2 = g.height - 1) ∨
          (pawn.side = Compass.west ∧ dst.1 = 0) ∨
          (pawn.side = Compass.east ∧ dst.1 = g.width - 1) then
        some { g with
          cells := cells'
          pawns := g.pawns.set g.curr_pawn { pawn with pos := dst, win := true }
          finished := true }
      else
        some (Quoridor.next_pawn
          { g with cells := cells', pawns := g.pawns.set g.curr_pawn { pawn with pos := dst } })

/-- A validated action: `move` or `put_fence`, both with `check=True` and
acting on the current pawn. -/
inductive QAction where
  | move (dst : Nat × Nat)
  | put_fence (coord : Nat × Nat) (o : Orient)

/-- Apply one validated action. -/
def Quoridor.step (g : Quoridor) : QAction → Option Quoridor
  | .move dst => g.move dst
  | .put_fence c o => g.put_fence c o

/-- Run a list of validated actions, failing if any action is rejected. -/
def Quoridor.run (g : Quoridor) : List QAction → Option Quoridor
  | [] => some g
  | a :: acts =>
    match g.step a with
    | none => none
    | some g' => g'.run acts

/-- A state reachable from the default initial game (`Quoridor()`:
a 9×9 board with the two default pawns) by validated actions only. -/
def Reachable (g : Quoridor) : Prop :=
  ∃ acts, (Quoridor.init 9 9).run acts = some g

/-! ### List-based embedding of `is_blocking` for the indexing claims

Python lists raise `IndexError` on an out-of-range (non-negative) index,
so here every access is modelled in the `Option` monad: `none` is a raised
exception.  This embedding keeps the source's exact allocation
(`cell_tags` is `h` lists of length `w`) and its exact index expressions,
including the dimensions `_fill_cells` derives from `len(cells)` and
`len(cells[0])`, so the transposition matters on non-square boards. -/

/-- Python `xss[c][r]`: `none` when either index is out of range. -/
def getE {α : Type} (xss : List (List α)) (c r : Nat) : Option α :=
  (xss.get? c).bind fun xs => xs.get? r

/-- Python `xss[c][r] = v`; only ever invoked after a successful read of
the same position, so the total no-op-on-out-of-range `List.set` is
faithful. -/
def setE {α : Type} (xss : List (List α)) (c r : Nat) (v : α) : List (List α) :=
  xss.set c (((xss.get? c).getD []).set r v)

/-- One of Python's short-circuited guard halves
`cond or grid[slot] is not o`: the grid is only read when `cond` is
false. -/
def guardL (grid : List (List (Option Orient))) (skip : Bool) (slot : Nat × Nat)
    (o : Orient) : Option Bool :=
  if skip then pure true
  else do
    let v ← getE grid slot.1 slot.2
    pure (decide (v ≠ some o))

/-- `Quoridor._fill_cells` over real lists with every index access
checked.  `w, h = len(cells), len(cells[0])` is computed exactly as in the
source (`cells[0]` itself can raise). -/
def fill_cellsL (grid : List (List (Option Orient))) :
    Nat → List (List (Option Nat)) → Nat × Nat → Nat → Option (List (List (Option Nat)))
  | 0, cls, _, _ => some cls
  | fuel + 1, cls, p, tag => do
    let w := cls.length
    let row0 ← cls.get? 0
    let h := row0.length
    let cur ← getE cls p.1 p.2
    if cur.isSome then pure cls
    else do
      let c := p.1
      let r := p.2
      let cls0 := setE cls c r (some tag)
      let cls1 ← (if 0 < c then do
          let a ← guardL grid (decide (r = 0)) (c - 1, r - 1) Orient.vert
          if a then do
            let b ← guardL grid (decide (r = h - 1)) (c - 1, r) Orient.vert
            if b then fill_cellsL grid fuel cls0 (c - 1, r) tag else pure cls0
          else pure cls0
        else pure cls0)
      let cls2 ← (if c < w - 1 then do
          let a ← guardL grid (decide (r = 0)) (c, r - 1) Orient.vert
          if a then do
            let b ← guardL grid (decide (r = h - 1)) (c, r) Orient.vert
            if b then fill_cellsL grid fuel cls1 (c + 1, r) tag else pure cls1
          else pure cls1
        else pure cls1)
      let cls3 ← (if 0 < r then do
          let a ← guardL grid (decide (c = 0)) (c - 1, r - 1) Orient.horz
          if a then do
            let b ← guardL grid (decide (c = w - 1)) (c, r - 1) Orient.horz
            if b then fill_cellsL grid fuel cls2 (c, r - 1) tag else pure cls2
          else pure cls2
        else pure cls2)
      if r < h - 1 then do
        let a ← guardL grid (decide (c = 0)) (c - 1, r) Orient.horz
        if a then do
          let b ← guardL grid (decide (c = w - 1)) (c, r) Orient.horz
          if b then fill_cellsL grid fuel cls3 (c, r + 1) tag else pure cls3
        else pure cls3
      else pure cls3

/-- One iteration of the labelling loop over the list representation:
read the cell (a checked access), skip it if labelled, else flood-fill
from it. -/
def tag_stepL (grid : List (List (Option Orient))) (w h : Nat)
    (st : List (List (Option Nat)) × Nat) (pos : Nat × Nat) :
    Option (List (List (Option Nat)) × Nat) := do
  let cur ← getE st.1 pos.1 pos.2
  if cur.isSome then pure st
  else do
    let cls ← fill_cellsL grid (h * w + 1) st.1 pos st.2
    pure (cls, st.2 + 1)

/-- The labelling loop of `is_blocking` over the list representation: the
label array is allocated as `h` lists of length `w` but indexed
`[col][row]` with `col < w`, `row < h`, exactly as in the source. -/
def compute_tagsL (grid : List (List (Option Orient))) (w h : Nat) :
    Option (List (List (Option Nat))) := do
  let st ← (all_pos w h).foldlM (tag_stepL grid w h)
    (List.replicate h (List.replicate w (none : Option Nat)), 0)
  pure st.1

/-- The shape of a Python list-of-lists: `m` rows, each of length `k`. -/
def shapeL {α : Type} (xss : List (List α)) (m k : Nat) : Prop :=
  xss.length = m ∧ ∀ row ∈ xss, row.length = k

instance {α : Type} [DecidableEq α] (xss : List (List α)) (m k : Nat) :
    Decidable (shapeL xss m k) := by
  unfold shapeL; infer_instance

/-- Python's short-circuiting `all(tag != cell_tags[dst[0]][dst[1]] ...)`:
stops (skipping the remaining reads) at the first equal label. -/
def all_neqL (tags : List (List (Option Nat))) (tag : Option Nat) :
    List (Nat × Nat) → Option Bool
  | [] => pure true
  | d :: ds => do
    let v ← getE tags d.1 d.2
    if tag ≠ v then all_neqL tags tag ds else pure false

/-- `Quoridor.is_blocking` on the cache-miss path over the list
representation: label every cell, then read the pawn's label and compare
against the goal boundary.  `none` is a raised `IndexError`. -/
def is_blockingL (width height : Nat) (grid : List (List (Option Orient))) (p : Pawn) :
    Option Bool := do
  let tags ← compute_tagsL grid width height
  let tag ← getE tags p.pos.1 p.pos.2
  all_neqL tags tag (p.side.oppo.cells width height)

/-! ### Concrete states used as test inputs below -/

/-- `Quoridor(2, 2)`: SOUTH pawn at `(1, 0)`, NORTH pawn at `(0, 1)`. -/
def game22 : Quoridor := Quoridor.init 2 2

/-- The SOUTH pawn of `game22` (`pawns[0]`). -/
def pawnS22 : Pawn := { side := Compass.south, pos := (1, 0) }

/-- `game22` after a direct `is_blocking` call: the connectivity cache is
populated (with the labels of the empty grid). -/
def game22stale : Quoridor := (game22.is_blocking pawnS22).2

/-- A finished `2×2` game (the `finished` flag set on `Quoridor(2, 2)`). -/
def gameFin : Quoridor := { game22 with finished := true }

/-- A `3×3` board with the SOUTH pawn at `(1, 0)` directly below the
NORTH pawn at `(1, 1)`, no fences: the jump scenario. -/
def game33 : Quoridor :=
  let pawns : List Pawn := [{ side := .south, pos := (1, 0) }, { side := .north, pos := (1, 1) }]
  { height := 3
    width := 3
    pawns := pawns
    curr_pawn := 0
    cells := place_pawns pawns
    cell_tags := none
    grid := fun _ => none
    finished := false }

/-- The SOUTH pawn of `game33`. -/
def pawnS33 : Pawn := { side := Compass.south, pos := (1, 0) }

/-- `Quoridor()` (the default 9×9 game) after a HORIZONTAL fence was
placed in slot `(3, 3)`. -/
def game9fence : Quoridor :=
  { Quoridor.init 9 9 with grid := Function.update (fun _ => none) (3, 3) (some Orient.horz) }

/-- `Quoridor(2, 2)` with the current (SOUTH) pawn's fence inventory
exhausted. -/
def gameZeroFences : Quoridor :=
  { game22 with pawns := [{ side := .south, pos := (1, 0), num_fences := 0 },
                          { side := .north, pos := (0, 1) }] }

/-! ### The adjacency relation in the claims' wording -/

/-- Cell `p` lies on the `w × h` board. -/
def InRect (w h : Nat) (p : Nat × Nat) : Prop :=
  p.1 < w ∧ p.2 < h

instance (w h : Nat) (p : Nat × Nat) : Decidable (InRect w h p) := by
  unfold InRect; infer_instance

/-- Modelled from the claim wording: a VERTICAL fence at slot `(c, sr)`
blocks the edge between cell columns `c` and `c+1` at rows `sr` and
`sr+1`. -/
def vblocked (grid : Nat × Nat → Option Orient) (h c r : Nat) : Prop :=
  ∃ sr, sr < h - 1 ∧ (r = sr ∨ r = sr + 1) ∧ grid (c, sr) = some Orient.vert

/-- Modelled from the claim wording: a HORIZONTAL fence at slot `(sc, r)`
blocks the edge between cell rows `r` and `r+1` at columns `sc` and
`sc+1`. -/
def hblocked (grid : Nat × Nat → Option Orient) (w c r : Nat) : Prop :=
  ∃ sc, sc < w - 1 ∧ (c = sc ∨ c = sc + 1) ∧ grid (sc, r) = some Orient.horz

instance (grid : Nat × Nat → Option Orient) (h c r : Nat) : Decidable (vblocked grid h c r) :=
  decidable_of_iff
    ((r < h - 1 ∧ grid (c, r) = some Orient.vert) ∨
      (0 < r ∧ r - 1 < h - 1 ∧ grid (c, r - 1) = some Orient.vert)) (by
    constructor
    · rintro (⟨hb, hg⟩ | ⟨hr, hb, hg⟩)
      · exact ⟨r, hb, Or.inl rfl, hg⟩
      · exact ⟨r - 1, hb, Or.inr (by omega), hg⟩
    · rintro ⟨sr, hb, hor, hg⟩
      rcases hor with h1 | h1
      · exact Or.inl ⟨h1 ▸ hb, h1 ▸ hg⟩
      · refine Or.inr ⟨by omega, ?_, ?_⟩
        · have : r - 1 = sr := by omega
          rw [this]; exact hb
        · have : r - 1 = sr := by omega
          rw [this]; exact hg)

instance (grid : Nat × Nat → Option Orient) (w c r : Nat) : Decidable (hblocked grid w c r) :=
  decidable_of_iff
    ((c < w - 1 ∧ grid (c, r) = some Orient.horz) ∨
      (0 < c ∧ c - 1 < w - 1 ∧ grid (c - 1, r) = some Orient.horz)) (by
    constructor
    · rintro (⟨hb, hg⟩ | ⟨hc, hb, hg⟩)
      · exact ⟨c, hb, Or.inl rfl, hg⟩
      · exact ⟨c - 1, hb, Or.inr (by omega), hg⟩
    · rintro ⟨sc, hb, hor, hg⟩
      rcases hor with h1 | h1
      · exact Or.inl ⟨h1 ▸ hb, h1 ▸ hg⟩
      · refine Or.inr ⟨by omega, ?_, ?_⟩
        · have : c - 1 = sc := by omega
          rw [this]; exact hb
        · have : c - 1 = sc := by omega
          rw [this]; exact hg)

/-- Modelled from the claim wording: two orthogonally adjacent in-bounds
cells are connected unless a fence blocks their shared edge, with the
blocking rule given by `vblocked`/`hblocked`. -/
def SpecAdj (grid : Nat × Nat → Option Orient) (w h : Nat) (a b : Nat × Nat) : Prop :=
  (a.1 < w ∧ a.2 < h ∧ b.1 < w ∧ b.2 < h) ∧
  ((b.1 = a.1 + 1 ∧ b.2 = a.2 ∧ ¬vblocked grid h a.1 a.2) ∨
   (a.1 = b.1 + 1 ∧ a.2 = b.2 ∧ ¬vblocked grid h b.1 b.2) ∨
   (b.2 = a.2 + 1 ∧ b.1 = a.1 ∧ ¬hblocked grid w a.1 a.2) ∨
   (a.2 = b.2 + 1 ∧ a.1 = b.1 ∧ ¬hblocked grid w b.1 b.2))

instance (grid : Nat × Nat → Option Orient) (w h : Nat) (a b : Nat × Nat) :
    Decidable (SpecAdj grid w h a b) := by
  unfold SpecAdj; infer_instance

/-- Connectivity under fence-blocked adjacency, in the claims' wording. -/
def SpecReach (grid : Nat × Nat → Option Orient) (w h : Nat) (a b : Nat × Nat) : Prop :=
  Relation.ReflTransGen (SpecAdj grid w h) a b

/-- Connectivity under the code's step guards (proved equivalent to
`SpecReach` below). -/
def Reach (grid : Nat × Nat → Option Orient) (w h : Nat) (a b : Nat × Nat) : Prop :=
  Relation.ReflTransGen (Adj grid w h) a b

/-- The number of still-unlabelled cells of the `w × h` rectangle: the
termination measure showing the flood-fill fuel suffices. -/
def noneCard (w h : Nat) (t : Tags) : Nat :=
  ((Finset.range w ×ˢ Finset.range h).filter fun q => t.app q = none).card

/-- The number of unvisited cells of the `w × h` rectangle: the
termination measure showing the `move_region` fuel suffices. -/
def unvisCard (w h : Nat) (visited : List (Nat × Nat)) : Nat :=
  ((Finset.range w ×ˢ Finset.range h).filter fun q => q ∉ visited).card

/-- A pawn of the default 9×9 game can still reach its goal boundary
under the current fence grid. -/
def NotBlocked (grid : Nat × Nat → Option Orient) (p : Pawn) : Prop :=
  ∃ dst ∈ Compass.cells p.side.oppo 9 9, Reach grid 9 9 p.pos dst

/-- The invariant maintained by every validated action from the default
initial game: dimensions 9×9, clear label cache, and every pawn in
bounds, with a non-negative fence count and a path to its goal. -/
def StateInv (g : Quoridor) : Prop :=
  g.width = 9 ∧ g.height = 9 ∧ g.cell_tags = none ∧
    ∀ p ∈ g.pawns, (p.pos.1 < 9 ∧ p.pos.2 < 9) ∧ 0 ≤ p.num_fences ∧ NotBlocked g.grid p

/-- The SOUTH pawn of the default 9×9 game. -/
def pawnS9 : Pawn := { side := Compass.south, pos := (4, 0) }

/-! ### State-shape lemmas: which fields each operation can touch -/

/-- The `any(...)` loop of `can_put_fence` writes only the cache. -/
theorem any_blocking_snd (ps : List Pawn) (g : Quoridor) :
    ∃ ct, (any_blocking g ps).2 = { g with cell_tags := ct } := by
  induction ps generalizing g with
  | nil => exact ⟨g.cell_tags, rfl⟩
  | cons p ps ih =>
    simp only [any_blocking]
    split
    · exact ⟨_, rfl⟩
    · obtain ⟨ct, hct⟩ := ih ((g.is_blocking p).2)
      exact ⟨ct, hct.trans rfl⟩

/-- `can_put_fence` writes only the cache and the fence grid. -/
theorem can_put_fence_snd (g : Quoridor) (c : Nat × Nat) (o : Orient) :
    ∃ ct gr, (g.can_put_fence c o).2 = { g with cell_tags := ct, grid := gr } := by
  unfold Quoridor.can_put_fence
  split
  · exact ⟨g.cell_tags, g.grid, rfl⟩
  split
  · exact ⟨g.cell_tags, g.grid, rfl⟩
  split
  · exact ⟨g.cell_tags, g.grid, rfl⟩
  obtain ⟨ct, hct⟩ := any_blocking_snd
    ({ g with grid := Function.update g.grid c (some o) } : Quoridor).pawns
    { g with grid := Function.update g.grid c (some o) }
  refine ⟨none, Function.update (Function.update g.grid c (some o)) c none, ?_⟩
  simp only []
  rw [hct]

/-- On a state with an empty cache, `can_put_fence` restores the state
exactly: the grid write is retracted (the slot was empty, or the call
returned before mutating) and the cache ends clear. -/
theorem can_put_fence_restores (g : Quoridor) (c : Nat × Nat) (o : Orient)
    (hc : g.cell_tags = none) : (g.can_put_fence c o).2 = g := by
  unfold Quoridor.can_put_fence
  split
  · rfl
  split
  · rfl
  split
  · rfl
  case isFalse hb hocc hov =>
    have hnone : g.grid c = none := Option.not_isSome_iff_eq_none.mp hocc
    obtain ⟨ct, hct⟩ := any_blocking_snd
      ({ g with grid := Function.update g.grid c (some o) } : Quoridor).pawns
      { g with grid := Function.update g.grid c (some o) }
    have hgrid : Function.update (Function.update g.grid c (some o)) c none = g.grid := by
      rw [Function.update_idem]
      calc Function.update g.grid c none
          = Function.update g.grid c (g.grid c) := by rw [hnone]
        _ = g.grid := Function.update_eq_self c g.grid
    simp only []
    rw [hct]
    ext1
    · rfl
    · rfl
    · rfl
    · rfl
    · rfl
    · exact hc.symm
    · exact hgrid
    · rfl

/-! ### Claim C3: the `finished` flag does not guard `move`/`put_fence` -/

/-- C3 counterexample: on a finished game, `move` does not fail with a
game-already-finished error: it succeeds and changes the pawn positions. -/
theorem claim3_counterexample :
    gameFin.finished = true ∧ (gameFin.move (0, 0)).isSome = true ∧
      (gameFin.move (0, 0)).map Quoridor.pawns ≠ some gameFin.pawns := by decide

/-- C3 (amended): `move` and `put_fence` themselves never consult the
`finished` flag (only the `do` command wrapper does): even on a finished
game, a move to a cell of the move region succeeds, and a fence placement
with fences in stock that passes `can_put_fence` succeeds. -/
theorem claim3_no_finished_guard :
    (∀ (g : Quoridor) (p : Pawn) (dst : Nat × Nat), g.pawns.get? g.curr_pawn = some p →
      g.finished = true → dst ∈ g.move_region p → (g.move dst).isSome = true) ∧
    (∀ (g : Quoridor) (p : Pawn) (c : Nat × Nat) (o : Orient),
      g.pawns.get? g.curr_pawn = some p → g.finished = true → 0 < p.num_fences →
      (g.can_put_fence c o).1 = true → (g.put_fence c o).isSome = true) := by
  constructor
  · intro g p dst hp _ hdst
    simp only [Quoridor.move, hp]
    rw [if_neg (by simp only [Decidable.not_not]; exact hdst)]
    split <;> rfl
  · intro g p c o hp _ hf hcan
    simp only [Quoridor.put_fence, hp]
    rw [if_neg (by omega), if_neg (by simp only [hcan]; exact fun hcon => Bool.noConfusion hcon)]
    rfl

/-- C3 witness: the amended theorem applied to the finished game
`gameFin`. -/
theorem claim3_witness : (gameFin.move (0, 0)).isSome = true :=
  claim3_no_finished_guard.1 gameFin pawnS22 (0, 0) (by decide) (by decide) (by decide)

/-! ### Claim C4: the cache is not invalidated before the speculative
insert -/

/-- C4: the code-bug evidence.  A direct `is_blocking` call populates the
cache (third conjunct); `can_put_fence` then reads those stale labels
against the speculatively mutated grid and accepts a fence that cuts both
pawns off (first conjunct), while the same call on the cache-clear state
correctly rejects it (second conjunct).  The cache is therefore not
cleared before the speculative insert, contradicting the claim. -/
theorem claim4_stale_cache_bug :
    (game22stale.can_put_fence (0, 0) Orient.horz).1 = true ∧
      (game22.can_put_fence (0, 0) Orient.horz).1 = false ∧
      game22stale.cell_tags.isSome = true := by decide

/-! ### Claim C5: idempotence of the speculative check -/

/-- C5 counterexample: on a state whose cache is stale (populated by a
direct `is_blocking` call), two consecutive `can_put_fence` calls with no
intervening mutation return different results. -/
theorem claim5_counterexample :
    (game22stale.can_put_fence (0, 0) Orient.horz).1 = true ∧
      ((game22stale.can_put_fence (0, 0) Orient.horz).2.can_put_fence (0, 0) Orient.horz).1 =
        false := by decide

/-- C5 (amended): when the connectivity-label cache is empty on entry —
which holds in every state produced by the public operations —
`can_put_fence` leaves the state (fence grid and cache included) exactly
unchanged, and therefore any number of repeated calls yield identical
results. -/
theorem claim5_idempotent_when_cache_clear (g : Quoridor) (c : Nat × Nat) (o : Orient)
    (hc : g.cell_tags = none) :
    (g.can_put_fence c o).2 = g ∧
      (g.can_put_fence c o).2.can_put_fence c o = g.can_put_fence c o := by
  have h := can_put_fence_restores g c o hc
  exact ⟨h, by rw [h]⟩

/-- C5 witness: the amended theorem applied to `Quoridor(2, 2)`. -/
theorem claim5_witness :
    (game22.can_put_fence (0, 0) Orient.horz).2 = game22 ∧
      (game22.can_put_fence (0, 0) Orient.horz).2.can_put_fence (0, 0) Orient.horz =
        game22.can_put_fence (0, 0) Orient.horz :=
  claim5_idempotent_when_cache_clear game22 (0, 0) Orient.horz rfl

/-! ### Claim C7: occupied-slot and overlap rejections -/

/-- C7: `can_put_fence` returns `false` whenever the slot already holds a
fence of either orientation, or the existing same-orientation
neighbour-slot conflict applies (HORIZONTAL with the slot directly left
or right, VERTICAL with the slot directly below or above). -/
theorem claim7_overlap_reject (g : Quoridor) (c : Nat × Nat) (o : Orient)
    (h : (g.grid c).isSome ∨ overlaps g c o) : (g.can_put_fence c o).1 = false := by
  unfold Quoridor.can_put_fence
  split
  · rfl
  split
  · rfl
  split
  · rfl
  case isFalse hb hocc hov =>
    cases h with
    | inl h => exact absurd h hocc
    | inr h => exact absurd h hov

/-- C7 witness: the claim's own scenario — after a HORIZONTAL fence at
slot `(3, 3)` on an empty 9×9 board, HORIZONTAL at `(4, 3)` is rejected
as an overlap. -/
theorem claim7_witness : (game9fence.can_put_fence (4, 3) Orient.horz).1 = false :=
  claim7_overlap_reject game9fence (4, 3) Orient.horz (Or.inr (by decide))

/-! ### Claim C9: default pawn positions -/

/-- C9 counterexample: on a board of even width 8, the NORTH default
position is `(3, 7)`, not the claimed higher-index midpoint
`(int(8/2), 7) = (4, 7)`. -/
theorem claim9_counterexample : default_pos 8 8 Compass.north ≠ (8 / 2, 8 - 1) := by decide

/-- C9 (amended): SOUTH and EAST use `int(w/2)` / `int(h/2)` (the higher
index on even ties) while NORTH and WEST use `int((w-1)/2)` /
`int((h-1)/2)` (the lower index on even ties); when the relevant edge
length is odd, every side's default is the exact midpoint and the claimed
`int(w/2)`-style formula holds for all four sides. -/
theorem claim9_default_pos (w h : Nat) :
    (default_pos w h Compass.north = ((w - 1) / 2, h - 1) ∧
      default_pos w h Compass.south = (w / 2, 0) ∧
      default_pos w h Compass.west = (0, (h - 1) / 2) ∧
      default_pos w h Compass.east = (w - 1, h / 2)) ∧
    (w % 2 = 1 → h % 2 = 1 → ∀ s, default_pos w h s =
      match s with
      | Compass.north => (w / 2, h - 1)
      | Compass.south => (w / 2, 0)
      | Compass.west => (0, h / 2)
      | Compass.east => (w - 1, h / 2)) := by
  refine ⟨⟨rfl, rfl, rfl, rfl⟩, ?_⟩
  intro hw hh s
  cases s <;> simp only [default_pos]
  · have : (w - 1) / 2 = w / 2 := by omega
    rw [this]
  · have : (h - 1) / 2 = h / 2 := by omega
    rw [this]

/-- C9 witness: on the default odd 9×9 board, NORTH's default position is
the exact midpoint `(int(9/2), 8)`. -/
theorem claim9_witness : default_pos 9 9 Compass.north = (9 / 2, 9 - 1) :=
  (claim9_default_pos 9 9).2 (by decide) (by decide) Compass.north

/-! ### Adjacency lemmas -/

/-- Membership in a conditional singleton. -/
theorem mem_ite_singleton {q x : Nat × Nat} {c : Prop} [Decidable c] :
    (q ∈ if c then [x] else []) ↔ c ∧ q = x := by
  split
  case isTrue hc => simp [hc]
  case isFalse hc => simp [hc]

/-- The explored neighbour list realises exactly the `Adj` steps. -/
theorem mem_nbrs_iff {grid : Nat × Nat → Option Orient} {w h : Nat} {p q : Nat × Nat} :
    q ∈ nbrs grid w h p ↔ Adj grid w h p q := by
  simp only [nbrs, List.mem_append, mem_ite_singleton, Adj]
  tauto

/-- An `Adj` step from an in-bounds cell stays in bounds. -/
theorem adj_inRect {grid : Nat × Nat → Option Orient} {w h : Nat} {a b : Nat × Nat}
    (ha : InRect w h a) (hab : Adj grid w h a b) : InRect w h b := by
  obtain ⟨c, r⟩ := a
  obtain ⟨hc, hr⟩ := ha
  simp only [Adj, openW, openE, openS, openN] at hab
  rcases hab with ⟨⟨h1, -, -⟩, rfl⟩ | ⟨⟨h1, -, -⟩, rfl⟩ | ⟨⟨h1, -, -⟩, rfl⟩ | ⟨⟨h1, -, -⟩, rfl⟩
  · exact ⟨by omega, hr⟩
  · exact ⟨by omega, hr⟩
  · exact ⟨hc, by omega⟩
  · exact ⟨hc, by omega⟩

/-- `Adj` is symmetric from in-bounds cells. -/
theorem adj_symm {grid : Nat × Nat → Option Orient} {w h : Nat} {a b : Nat × Nat}
    (ha : InRect w h a) (hab : Adj grid w h a b) : Adj grid w h b a := by
  obtain ⟨c, r⟩ := a
  obtain ⟨hc, hr⟩ := ha
  simp only [Adj, openW, openE, openS, openN] at hab ⊢
  rcases hab with ⟨⟨h1, h2, h3⟩, rfl⟩ | ⟨⟨h1, h2, h3⟩, rfl⟩ | ⟨⟨h1, h2, h3⟩, rfl⟩ |
    ⟨⟨h1, h2, h3⟩, rfl⟩
  · refine Or.inr (Or.inl ⟨⟨by omega, h2, h3⟩, ?_⟩)
    have he : c - 1 + 1 = c := by omega
    rw [he]
  · refine Or.inl ⟨⟨by omega, ?_, ?_⟩, ?_⟩ <;> simp only [Nat.add_sub_cancel]
    · exact h2
    · exact h3
  · refine Or.inr (Or.inr (Or.inr ⟨⟨by omega, h2, h3⟩, ?_⟩))
    have he : r - 1 + 1 = r := by omega
    rw [he]
  · refine Or.inr (Or.inr (Or.inl ⟨⟨by omega, ?_, ?_⟩, ?_⟩)) <;> simp only [Nat.add_sub_cancel]
    · exact h2
    · exact h3

/-- `Reach` from an in-bounds cell stays in bounds. -/
theorem reach_inRect {grid : Nat × Nat → Option Orient} {w h : Nat} {a b : Nat × Nat}
    (hr : Reach grid w h a b) (ha : InRect w h a) : InRect w h b := by
  induction hr with
  | refl => exact ha
  | tail _ hadj ih => exact adj_inRect ih hadj

/-- `Reach` is symmetric from an in-bounds start. -/
theorem reach_symm {grid : Nat × Nat → Option Orient} {w h : Nat} {a b : Nat × Nat}
    (hr : Reach grid w h a b) (ha : InRect w h a) : Reach grid w h b a := by
  induction hr with
  | refl => exact .refl
  | tail hab hadj ih =>
    exact Relation.ReflTransGen.head (adj_symm (reach_inRect hab ha) hadj) ih

/-- The `c < w-1` guard matches the claim's blocking rule (for an
in-bounds row). -/
theorem openE_iff {grid : Nat × Nat → Option Orient} {w h c r : Nat} (hr : r < h) :
    openE grid w h c r ↔ (c < w - 1 ∧ ¬vblocked grid h c r) := by
  unfold openE vblocked
  constructor
  · rintro ⟨h1, h2, h3⟩
    refine ⟨h1, ?_⟩
    rintro ⟨sr, hb, hor, hg⟩
    rcases hor with rfl | h4
    · rcases h3 with h3 | h3
      · omega
      · exact h3 hg
    · rcases h2 with h2 | h2
      · omega
      · refine h2 ?_
        have he : r - 1 = sr := by omega
        rw [he]; exact hg
  · rintro ⟨h1, h2⟩
    refine ⟨h1, ?_, ?_⟩
    · by_cases h0 : r = 0
      · exact Or.inl h0
      · exact Or.inr fun hg => h2 ⟨r - 1, by omega, Or.inr (by omega), hg⟩
    · by_cases hh : r = h - 1
      · exact Or.inl hh
      · exact Or.inr fun hg => h2 ⟨r, by omega, Or.inl rfl, hg⟩

/-- The `c > 0` guard matches the claim's blocking rule. -/
theorem openW_iff {grid : Nat × Nat → Option Orient} {h c r : Nat} (hr : r < h) :
    openW grid h c r ↔ (0 < c ∧ ¬vblocked grid h (c - 1) r) := by
  unfold openW vblocked
  constructor
  · rintro ⟨h1, h2, h3⟩
    refine ⟨h1, ?_⟩
    rintro ⟨sr, hb, hor, hg⟩
    rcases hor with rfl | h4
    · rcases h3 with h3 | h3
      · omega
      · exact h3 hg
    · rcases h2 with h2 | h2
      · omega
      · refine h2 ?_
        have he : r - 1 = sr := by omega
        rw [he]; exact hg
  · rintro ⟨h1, h2⟩
    refine ⟨h1, ?_, ?_⟩
    · by_cases h0 : r = 0
      · exact Or.inl h0
      · exact Or.inr fun hg => h2 ⟨r - 1, by omega, Or.inr (by omega), hg⟩
    · by_cases hh : r = h - 1
      · exact Or.inl hh
      · exact Or.inr fun hg => h2 ⟨r, by omega, Or.inl rfl, hg⟩

/-- The `r < h-1` guard matches the claim's blocking rule (for an
in-bounds column). -/
theorem openN_iff {grid : Nat × Nat → Option Orient} {w h c r : Nat} (hc : c < w) :
    openN grid w h c r ↔ (r < h - 1 ∧ ¬hblocked grid w c r) := by
  unfold openN hblocked
  constructor
  · rintro ⟨h1, h2, h3⟩
    refine ⟨h1, ?_⟩
    rintro ⟨sc, hb, hor, hg⟩
    rcases hor with rfl | h4
    · rcases h3 with h3 | h3
      · omega
      · exact h3 hg
    · rcases h2 with h2 | h2
      · omega
      · refine h2 ?_
        have he : c - 1 = sc := by omega
        rw [he]; exact hg
  · rintro ⟨h1, h2⟩
    refine ⟨h1, ?_, ?_⟩
    · by_cases h0 : c = 0
      · exact Or.inl h0
      · exact Or.inr fun hg => h2 ⟨c - 1, by omega, Or.inr (by omega), hg⟩
    · by_cases hh : c = w - 1
      · exact Or.inl hh
      · exact Or.inr fun hg => h2 ⟨c, by omega, Or.inl rfl, hg⟩

/-- The `r > 0` guard matches the claim's blocking rule. -/
theorem openS_iff {grid : Nat × Nat → Option Orient} {w c r : Nat} (hc : c < w) :
    openS grid w c r ↔ (0 < r ∧ ¬hblocked grid w c (r - 1)) := by
  unfold openS hblocked
  constructor
  · rintro ⟨h1, h2, h3⟩
    refine ⟨h1, ?_⟩
    rintro ⟨sc, hb, hor, hg⟩
    rcases hor with rfl | h4
    · rcases h3 with h3 | h3
      · omega
      · exact h3 hg
    · rcases h2 with h2 | h2
      · omega
      · refine h2 ?_
        have he : c - 1 = sc := by omega
        rw [he]; exact hg
  · rintro ⟨h1, h2⟩
    refine ⟨h1, ?_, ?_⟩
    · by_cases h0 : c = 0
      · exact Or.inl h0
      · exact Or.inr fun hg => h2 ⟨c - 1, by omega, Or.inr (by omega), hg⟩
    · by_cases hh : c = w - 1
      · exact Or.inl hh
      · exact Or.inr fun hg => h2 ⟨c, by omega, Or.inl rfl, hg⟩

/-- From an in-bounds cell, the code's step guards coincide with the
claim's fence-blocked adjacency. -/
theorem adj_iff_specAdj {grid : Nat × Nat → Option Orient} {w h : Nat} {a b : Nat × Nat}
    (ha : InRect w h a) : Adj grid w h a b ↔ SpecAdj grid w h a b := by
  obtain ⟨c, r⟩ := a
  obtain ⟨hc, hr⟩ := ha
  constructor
  · intro hab
    have hb := adj_inRect ⟨hc, hr⟩ hab
    obtain ⟨hb1, hb2⟩ := hb
    simp only [Adj] at hab
    rcases hab with ⟨ho, rfl⟩ | ⟨ho, rfl⟩ | ⟨ho, rfl⟩ | ⟨ho, rfl⟩
    · rw [openW_iff hr] at ho
      exact ⟨⟨hc, hr, hb1, hb2⟩, Or.inr (Or.inl ⟨by omega, rfl, ho.2⟩)⟩
    · rw [openE_iff hr] at ho
      exact ⟨⟨hc, hr, hb1, hb2⟩, Or.inl ⟨rfl, rfl, ho.2⟩⟩
    · rw [openS_iff hc] at ho
      exact ⟨⟨hc, hr, hb1, hb2⟩, Or.inr (Or.inr (Or.inr ⟨by omega, rfl, ho.2⟩))⟩
    · rw [openN_iff hc] at ho
      exact ⟨⟨hc, hr, hb1, hb2⟩, Or.inr (Or.inr (Or.inl ⟨rfl, rfl, ho.2⟩))⟩
  · intro hab
    obtain ⟨bc, br⟩ := b
    obtain ⟨⟨hc1, hr1, hc2, hr2⟩, hcase⟩ := hab
    simp only [Adj]
    rcases hcase with ⟨h1, h2, h3⟩ | ⟨h1, h2, h3⟩ | ⟨h1, h2, h3⟩ | ⟨h1, h2, h3⟩
    · refine Or.inr (Or.inl ⟨(openE_iff hr).mpr ⟨by omega, h3⟩, ?_⟩)
      simp only at h1 h2
      rw [h1, h2]
    · refine Or.inl ⟨(openW_iff hr).mpr ⟨by omega, ?_⟩, ?_⟩
      · simp only at h1 h2
        have he : c - 1 = bc := by omega
        rw [he]
        show ¬vblocked grid h bc r
        rw [h2]; exact h3
      · simp only at h1 h2
        have heq : bc = c - 1 := by omega
        rw [heq, h2]
    · refine Or.inr (Or.inr (Or.inr ⟨(openN_iff hc).mpr ⟨by omega, h3⟩, ?_⟩))
      simp only at h1 h2
      rw [h1, h2]
    · refine Or.inr (Or.inr (Or.inl ⟨(openS_iff hc).mpr ⟨by omega, ?_⟩, ?_⟩))
      · simp only at h1 h2
        have he : r - 1 = br := by omega
        rw [he]
        show ¬hblocked grid w c br
        rw [h2]; exact h3
      · simp only at h1 h2
        have heq : br = r - 1 := by omega
        rw [heq, h2]

/-! ### Flood-fill correctness -/

/-- Reading the label array after one write. -/
theorem upd_app (t : Tags) (p : Nat × Nat) (v : Option Nat) (q : Nat × Nat) :
    (t.upd p v).app q = if q = p then v else t.app q :=
  Function.update_apply t.app p v q

/-- A fold preserves any property each step preserves. -/
theorem foldl_preserve {A B : Type} (f : B → A → B) (P : B → Prop)
    (hf : ∀ b a, P b → P (f b a)) : ∀ (l : List A) (b : B), P b → P (l.foldl f b) := by
  intro l
  induction l with
  | nil => exact fun b hb => hb
  | cons a l ih => exact fun b hb => ih _ (hf b a hb)

/-- `fill_cells` never changes an already-labelled cell. -/
theorem fill_preserve {grid : Nat × Nat → Option Orient} {w h : Nat} :
    ∀ (fuel : Nat) (cls : Tags) (p : Nat × Nat) (tag : Nat) (q : Nat × Nat) (v : Nat),
      cls.app q = some v → (fill_cells grid w h fuel cls p tag).app q = some v := by
  intro fuel
  induction fuel with
  | zero => exact fun cls p tag q v hv => hv
  | succ fuel ih =>
    intro cls p tag q v hv
    simp only [fill_cells]
    split
    · exact hv
    case isFalse hns =>
      refine foldl_preserve _ (fun cs => cs.app q = some v)
        (fun b a hb => ih b a tag q v hb) _ _ ?_
      show (cls.upd p (some tag)).app q = some v
      rw [upd_app]
      split
      case isTrue hqp =>
        subst hqp
        rw [hv] at hns
        exact absurd rfl hns
      case isFalse hqp => exact hv

/-- Labelled cells stay labelled across a fill. -/
theorem fill_isSome_preserve {grid : Nat × Nat → Option Orient} {w h : Nat}
    (fuel : Nat) (cls : Tags) (p : Nat × Nat) (tag : Nat) (q : Nat × Nat)
    (hq : (cls.app q).isSome) : ((fill_cells grid w h fuel cls p tag).app q).isSome := by
  obtain ⟨v, hv⟩ := Option.isSome_iff_exists.mp hq
  rw [fill_preserve fuel cls p tag q v hv]
  rfl

/-- Each cell either keeps its old label, or was unlabelled, is now
labelled `tag`, and is reachable from the fill's start. -/
theorem fill_new {grid : Nat × Nat → Option Orient} {w h : Nat} :
    ∀ (fuel : Nat) (cls : Tags) (p : Nat × Nat) (tag : Nat) (q : Nat × Nat),
      (fill_cells grid w h fuel cls p tag).app q = cls.app q ∨
        (cls.app q = none ∧ (fill_cells grid w h fuel cls p tag).app q = some tag ∧
          Reach grid w h p q) := by
  intro fuel
  induction fuel with
  | zero => exact fun cls p tag q => Or.inl rfl
  | succ fuel ih =>
    intro cls p tag q
    simp only [fill_cells]
    split
    · exact Or.inl rfl
    case isFalse hns =>
      have hpnone : cls.app p = none := Option.not_isSome_iff_eq_none.mp hns
      have hfold : ∀ (l : List (Nat × Nat)) (cls0 : Tags), (∀ x ∈ l, Adj grid w h p x) →
          (l.foldl (fun cs x => fill_cells grid w h fuel cs x tag) cls0).app q = cls0.app q ∨
            (cls0.app q = none ∧
              (l.foldl (fun cs x => fill_cells grid w h fuel cs x tag) cls0).app q = some tag ∧
              Reach grid w h p q) := by
        intro l
        induction l with
        | nil => exact fun cls0 _ => Or.inl rfl
        | cons x l ihl =>
          intro cls0 hadj
          simp only [List.foldl_cons]
          rcases ihl (fill_cells grid w h fuel cls0 x tag)
              (fun y hy => hadj y (List.mem_cons_of_mem x hy)) with hA | hB
          · rw [hA]
            rcases ih cls0 x tag q with hC | hC
            · exact Or.inl hC
            · refine Or.inr ⟨hC.1, hC.2.1, ?_⟩
              exact Relation.ReflTransGen.head (hadj x (List.mem_cons_self x l)) hC.2.2
          · refine Or.inr ⟨?_, hB.2.1, hB.2.2⟩
            rcases ho : cls0.app q with _ | v
            · rfl
            · rw [fill_preserve fuel cls0 x tag q v ho] at hB
              exact absurd hB.1 (by simp)
      rcases hfold (nbrs grid w h p) (cls.upd p (some tag))
          (fun x hx => mem_nbrs_iff.mp hx) with hA | hB
      · rw [hA, upd_app]
        split
        case isTrue hqp =>
          subst hqp
          exact Or.inr ⟨hpnone, rfl, Relation.ReflTransGen.refl⟩
        case isFalse hqp => exact Or.inl rfl
      · rw [upd_app] at hB
        rcases hB with ⟨hB1, hB2, hB3⟩
        split at hB1
        case isTrue => exact absurd hB1 (by simp)
        case isFalse hqp => exact Or.inr ⟨hB1, hB2, hB3⟩

/-- With any fuel at all, a fill labels its (unlabelled) start cell. -/
theorem fill_start {grid : Nat × Nat → Option Orient} {w h : Nat}
    (fuel : Nat) (cls : Tags) (p : Nat × Nat) (tag : Nat) (h1 : 1 ≤ fuel)
    (hp : cls.app p = none) : (fill_cells grid w h fuel cls p tag).app p = some tag := by
  obtain ⟨fuel, rfl⟩ : ∃ f, fuel = f + 1 := ⟨fuel - 1, by omega⟩
  simp only [fill_cells]
  rw [if_neg (by rw [hp]; simp)]
  refine foldl_preserve _ (fun cs => cs.app p = some tag)
    (fun b a hb => fill_preserve fuel b a tag p tag hb) _ _ ?_
  show (cls.upd p (some tag)).app p = some tag
  rw [upd_app, if_pos rfl]

/-- The unlabelled count never grows across a fill. -/
theorem fill_noneCard_le {grid : Nat × Nat → Option Orient} {w h : Nat}
    (fuel : Nat) (cls : Tags) (p : Nat × Nat) (tag : Nat) :
    noneCard w h (fill_cells grid w h fuel cls p tag) ≤ noneCard w h cls := by
  apply Finset.card_le_card
  intro q hq
  rw [Finset.mem_filter] at hq ⊢
  refine ⟨hq.1, ?_⟩
  rcases ho : cls.app q with _ | v
  · rfl
  · rw [fill_preserve fuel cls p tag q v ho] at hq
    exact absurd hq.2 (by simp)

/-- Writing a fresh label into an unlabelled in-bounds cell decreases the
unlabelled count by exactly one. -/
theorem noneCard_upd {w h : Nat} (cls : Tags) (p : Nat × Nat) (v : Nat)
    (hp : InRect w h p) (hnone : cls.app p = none) :
    noneCard w h (cls.upd p (some v)) + 1 = noneCard w h cls := by
  unfold noneCard
  have hset : ((Finset.range w ×ˢ Finset.range h).filter
        fun q => (cls.upd p (some v)).app q = none) =
      ((Finset.range w ×ˢ Finset.range h).filter fun q => cls.app q = none).erase p := by
    ext q
    rw [Finset.mem_erase, Finset.mem_filter, Finset.mem_filter, upd_app]
    constructor
    · rintro ⟨hq1, hq2⟩
      split at hq2
      · exact absurd hq2 (by simp)
      case isFalse hqp => exact ⟨hqp, hq1, hq2⟩
    · rintro ⟨hqp, hq1, hq2⟩
      rw [if_neg hqp]
      exact ⟨hq1, hq2⟩
  rw [hset]
  have hpmem : p ∈ (Finset.range w ×ˢ Finset.range h).filter fun q => cls.app q = none := by
    rw [Finset.mem_filter, Finset.mem_product, Finset.mem_range, Finset.mem_range]
    exact ⟨⟨hp.1, hp.2⟩, hnone⟩
  rw [Finset.card_erase_of_mem hpmem]
  have : 0 < ((Finset.range w ×ˢ Finset.range h).filter fun q => cls.app q = none).card :=
    Finset.card_pos.mpr ⟨p, hpmem⟩
  omega

/-- The unlabelled count is at most the board area. -/
theorem noneCard_le (w h : Nat) (t : Tags) : noneCard w h t ≤ w * h := by
  unfold noneCard
  calc ((Finset.range w ×ˢ Finset.range h).filter fun q => t.app q = none).card
      ≤ (Finset.range w ×ˢ Finset.range h).card := Finset.card_filter_le _ _
    _ = w * h := by rw [Finset.card_product, Finset.card_range, Finset.card_range]

/-- Saturation: with fuel exceeding the unlabelled count, every cell newly
labelled by a fill has all its open neighbours labelled in the result. -/
theorem fill_sat {grid : Nat × Nat → Option Orient} {w h : Nat} :
    ∀ (fuel : Nat) (cls : Tags) (p : Nat × Nat) (tag : Nat),
      InRect w h p → noneCard w h cls + 1 ≤ fuel →
      ∀ q nb, (fill_cells grid w h fuel cls p tag).app q ≠ cls.app q →
        nb ∈ nbrs grid w h q → ((fill_cells grid w h fuel cls p tag).app nb).isSome := by
  intro fuel
  induction fuel with
  | zero => intro cls p tag hp hfuel; omega
  | succ fuel ih =>
    intro cls p tag hp hfuel q nb hq hnb
    by_cases hs : (cls.app p).isSome
    · simp only [fill_cells] at hq
      rw [if_pos hs] at hq
      exact absurd rfl hq
    · have hpnone : cls.app p = none := Option.not_isSome_iff_eq_none.mp hs
      have hrect_nbrs : ∀ x ∈ nbrs grid w h p, InRect w h x :=
        fun x hx => adj_inRect hp (mem_nbrs_iff.mp hx)
      have hcard1 : noneCard w h (cls.upd p (some tag)) + 1 ≤ fuel := by
        have := noneCard_upd cls p tag hp hpnone
        omega
      have hfold : ∀ (l : List (Nat × Nat)) (cls0 : Tags),
          (∀ x ∈ l, InRect w h x) →
          noneCard w h cls0 + 1 ≤ fuel →
          (∀ q' nb', cls0.app q' ≠ (cls.upd p (some tag)).app q' →
            nb' ∈ nbrs grid w h q' → (cls0.app nb').isSome) →
          (∀ q' nb', (l.foldl (fun cs x => fill_cells grid w h fuel cs x tag) cls0).app q' ≠
              (cls.upd p (some tag)).app q' → nb' ∈ nbrs grid w h q' →
              ((l.foldl (fun cs x => fill_cells grid w h fuel cs x tag) cls0).app nb').isSome) ∧
          (∀ x ∈ l, ((l.foldl (fun cs x => fill_cells grid w h fuel cs x tag) cls0).app x).isSome) := by
        intro l
        induction l with
        | nil =>
          intro cls0 _ _ hsat
          exact ⟨hsat, fun x hx => absurd hx (List.not_mem_nil x)⟩
        | cons a l ihl =>
          intro cls0 hrect hcard hsat
          simp only [List.foldl_cons]
          have ha : InRect w h a := hrect a (List.mem_cons_self a l)
          have hsat1 : ∀ q' nb', (fill_cells grid w h fuel cls0 a tag).app q' ≠
              (cls.upd p (some tag)).app q' → nb' ∈ nbrs grid w h q' →
              ((fill_cells grid w h fuel cls0 a tag).app nb').isSome := by
            intro q' nb' hq' hnb'
            by_cases hch : (fill_cells grid w h fuel cls0 a tag).app q' = cls0.app q'
            · rw [hch] at hq'
              exact fill_isSome_preserve fuel cls0 a tag nb' (hsat q' nb' hq' hnb')
            · exact ih cls0 a tag ha hcard q' nb' hch hnb'
          have hcard2 : noneCard w h (fill_cells grid w h fuel cls0 a tag) + 1 ≤ fuel := by
            have := @fill_noneCard_le grid w h fuel cls0 a tag
            omega
          have hrest := ihl (fill_cells grid w h fuel cls0 a tag)
            (fun x hx => hrect x (List.mem_cons_of_mem a hx)) hcard2 hsat1
          refine ⟨hrest.1, ?_⟩
          intro x hx
          rcases List.mem_cons.mp hx with heq | hx'
          · subst heq
            refine foldl_preserve _ (fun cs => (cs.app x).isSome)
              (fun b y hb => fill_isSome_preserve fuel b y tag x hb) _ _ ?_
            show ((fill_cells grid w h fuel cls0 x tag).app x).isSome
            by_cases h0 : (cls0.app x).isSome
            · exact fill_isSome_preserve fuel cls0 x tag x h0
            · rw [fill_start fuel cls0 x tag (by omega) (Option.not_isSome_iff_eq_none.mp h0)]
              rfl
          · exact hrest.2 x hx'
      have hmain := hfold (nbrs grid w h p) (cls.upd p (some tag)) hrect_nbrs hcard1
        (fun q' nb' hq' _ => absurd rfl hq')
      simp only [fill_cells] at hq ⊢
      rw [if_neg hs] at hq ⊢
      by_cases hqp : q = p
      · subst hqp
        exact hmain.2 nb hnb
      · refine hmain.1 q nb ?_ hnb
        rw [upd_app, if_neg hqp]
        exact hq

/-- Membership in the labelling loop's enumeration is exactly being on
the board. -/
theorem mem_all_pos {w h : Nat} {p : Nat × Nat} : p ∈ all_pos w h ↔ InRect w h p := by
  obtain ⟨c, r⟩ := p
  simp only [all_pos, List.mem_flatMap, List.mem_map, List.mem_range, InRect]
  constructor
  · rintro ⟨col, hcol, row, hrow, heq⟩
    obtain ⟨h1, h2⟩ := Prod.mk.injEq .. ▸ heq
    constructor
    · simp only [← h1]; exact hcol
    · simp only [← h2]; exact hrow
  · rintro ⟨h1, h2⟩
    exact ⟨c, h1, r, h2, rfl⟩

/-- One iteration of the labelling loop preserves the loop invariant:
labels are below the counter, equally labelled cells are connected, and
labelled cells agree with their open neighbours. -/
theorem compute_step_inv {grid : Nat × Nat → Option Orient} {n : Nat}
    (st st' : Tags × Nat) (pos : Nat × Nat)
    (hst : st' = if (st.1.app pos).isSome then st
      else (fill_cells grid n n (n * n + 1) st.1 pos st.2, st.2 + 1))
    (hpos : InRect n n pos)
    (h2 : ∀ q t, st.1.app q = some t → t < st.2)
    (h3 : ∀ q1 q2 t, st.1.app q1 = some t → st.1.app q2 = some t → Reach grid n n q1 q2)
    (h4 : ∀ q nb, (st.1.app q).isSome → nb ∈ nbrs grid n n q → st.1.app nb = st.1.app q) :
    (∀ q t, st'.1.app q = some t → t < st'.2) ∧
    (∀ q1 q2 t, st'.1.app q1 = some t → st'.1.app q2 = some t → Reach grid n n q1 q2) ∧
    (∀ q nb, (st'.1.app q).isSome → nb ∈ nbrs grid n n q → st'.1.app nb = st'.1.app q) := by
  subst hst
  split
  · exact ⟨h2, h3, h4⟩
  case isFalse hns =>
    have hfuel : noneCard n n st.1 + 1 ≤ n * n + 1 := by
      have := noneCard_le n n st.1
      omega
    refine ⟨?_, ?_, ?_⟩
    · intro q t hq
      rcases fill_new (n * n + 1) st.1 pos st.2 q with hA | hB
      · rw [hA] at hq
        have := h2 q t hq
        omega
      · rw [hB.2.1] at hq
        have : t = st.2 := by exact (Option.some.injEq ..).mp hq.symm
        omega
    · intro q1 q2 t hq1 hq2
      rcases fill_new (n * n + 1) st.1 pos st.2 q1 with hA1 | hB1 <;>
        rcases fill_new (n * n + 1) st.1 pos st.2 q2 with hA2 | hB2
      · rw [hA1] at hq1
        rw [hA2] at hq2
        exact h3 q1 q2 t hq1 hq2
      · rw [hA1] at hq1
        rw [hB2.2.1] at hq2
        have ht : t = st.2 := (Option.some.injEq ..).mp hq2.symm
        have := h2 q1 t hq1
        omega
      · rw [hA2] at hq2
        rw [hB1.2.1] at hq1
        have ht : t = st.2 := (Option.some.injEq ..).mp hq1.symm
        have := h2 q2 t hq2
        omega
      · exact Relation.ReflTransGen.trans (reach_symm hB1.2.2 hpos) hB2.2.2
    · intro q nb hq hnb
      have hq' : ((fill_cells grid n n (n * n + 1) st.1 pos st.2).app q).isSome := hq
      show (fill_cells grid n n (n * n + 1) st.1 pos st.2).app nb =
        (fill_cells grid n n (n * n + 1) st.1 pos st.2).app q
      rcases fill_new (n * n + 1) st.1 pos st.2 q with hA | hB
      · rw [hA] at hq'
        have hold := h4 q nb hq' hnb
        obtain ⟨v, hv⟩ := Option.isSome_iff_exists.mp hq'
        rw [hA, fill_preserve (n * n + 1) st.1 pos st.2 nb v (hold.trans hv), hv]
      · have hqprev : st.1.app q = none := hB.1
        have hqrect : InRect n n q := reach_inRect hB.2.2 hpos
        have hchanged : (fill_cells grid n n (n * n + 1) st.1 pos st.2).app q ≠ st.1.app q := by
          rw [hB.2.1, hqprev]
          simp
        have hnbsome := fill_sat (n * n + 1) st.1 pos st.2 hpos hfuel q nb hchanged hnb
        rcases fill_new (n * n + 1) st.1 pos st.2 nb with hA2 | hB2
        · have hnbsome2 : (st.1.app nb).isSome := by
            rw [← hA2]
            exact hnbsome
          have hqmem : q ∈ nbrs grid n n nb :=
            mem_nbrs_iff.mpr (adj_symm hqrect (mem_nbrs_iff.mp hnb))
          have heq := h4 nb q hnbsome2 hqmem
          rw [hqprev] at heq
          rw [← heq] at hnbsome2
          exact absurd hnbsome2 (by simp)
        · rw [hB2.2.1, hB.2.1]

/-- The whole labelling loop: the invariant holds at the end, and every
enumerated cell ends up labelled. -/
theorem compute_loop {grid : Nat × Nat → Option Orient} {n : Nat} :
    ∀ (l : List (Nat × Nat)) (st0 : Tags × Nat),
      (∀ x ∈ l, InRect n n x) →
      (∀ q t, st0.1.app q = some t → t < st0.2) →
      (∀ q1 q2 t, st0.1.app q1 = some t → st0.1.app q2 = some t → Reach grid n n q1 q2) →
      (∀ q nb, (st0.1.app q).isSome → nb ∈ nbrs grid n n q → st0.1.app nb = st0.1.app q) →
      ((∀ q t, (l.foldl (tag_step grid n n) st0).1.app q = some t →
          t < (l.foldl (tag_step grid n n) st0).2) ∧
        (∀ q1 q2 t, (l.foldl (tag_step grid n n) st0).1.app q1 = some t →
          (l.foldl (tag_step grid n n) st0).1.app q2 = some t → Reach grid n n q1 q2) ∧
        (∀ q nb, ((l.foldl (tag_step grid n n) st0).1.app q).isSome →
          nb ∈ nbrs grid n n q →
          (l.foldl (tag_step grid n n) st0).1.app nb =
            (l.foldl (tag_step grid n n) st0).1.app q)) ∧
      (∀ x ∈ l, ((l.foldl (tag_step grid n n) st0).1.app x).isSome) := by
  intro l
  induction l with
  | nil =>
    intro st0 _ i2 i3 i4
    exact ⟨⟨i2, i3, i4⟩, fun x hx => absurd hx (List.not_mem_nil x)⟩
  | cons a l ihl =>
    intro st0 hrect i2 i3 i4
    simp only [List.foldl_cons]
    have ha := hrect a (List.mem_cons_self a l)
    obtain ⟨j2, j3, j4⟩ := compute_step_inv st0 (tag_step grid n n st0 a) a rfl ha i2 i3 i4
    have hrest := ihl (tag_step grid n n st0 a)
      (fun x hx => hrect x (List.mem_cons_of_mem a hx)) j2 j3 j4
    refine ⟨hrest.1, ?_⟩
    intro x hx
    rcases List.mem_cons.mp hx with heq | hx'
    · subst heq
      refine foldl_preserve _ (fun s : Tags × Nat => (s.1.app x).isSome) ?_ _ _ ?_
      · intro b y hb
        unfold tag_step
        split
        · exact hb
        · exact fill_isSome_preserve _ _ _ _ _ hb
      · show ((tag_step grid n n st0 x).1.app x).isSome
        unfold tag_step
        split
        case isTrue hsome => exact hsome
        case isFalse hnone =>
          show ((fill_cells grid n n (n * n + 1) st0.1 x st0.2).app x).isSome
          rw [fill_start _ _ _ _ (by omega) (Option.not_isSome_iff_eq_none.mp hnone)]
          rfl
    · exact hrest.2 x hx'

/-- Every in-bounds cell receives a label. -/
theorem compute_tags_some {grid : Nat × Nat → Option Orient} {n : Nat} (q : Nat × Nat)
    (hq : InRect n n q) : ((compute_tags grid n n).app q).isSome :=
  (compute_loop (all_pos n n) ((⟨fun _ => none⟩ : Tags), 0) (fun x hx => mem_all_pos.mp hx)
    (fun _ _ hqt => Option.noConfusion hqt) (fun _ _ _ hqt _ => Option.noConfusion hqt)
    (fun _ _ hs _ => Bool.noConfusion hs)).2 q (mem_all_pos.mpr hq)

/-- Equal labels mean connected cells. -/
theorem compute_tags_connected {grid : Nat × Nat → Option Orient} {n : Nat}
    (q1 q2 : Nat × Nat) (t : Nat) (hq1 : (compute_tags grid n n).app q1 = some t)
    (hq2 : (compute_tags grid n n).app q2 = some t) : Reach grid n n q1 q2 :=
  (compute_loop (all_pos n n) ((⟨fun _ => none⟩ : Tags), 0) (fun x hx => mem_all_pos.mp hx)
    (fun _ _ hqt => Option.noConfusion hqt) (fun _ _ _ hqt _ => Option.noConfusion hqt)
    (fun _ _ hs _ => Bool.noConfusion hs)).1.2.1 q1 q2 t hq1 hq2

/-- A labelled cell and any open neighbour carry the same label. -/
theorem compute_tags_adj {grid : Nat × Nat → Option Orient} {n : Nat}
    (q nb : Nat × Nat) (hsome : ((compute_tags grid n n).app q).isSome)
    (hnb : nb ∈ nbrs grid n n q) :
    (compute_tags grid n n).app nb = (compute_tags grid n n).app q :=
  (compute_loop (all_pos n n) ((⟨fun _ => none⟩ : Tags), 0) (fun x hx => mem_all_pos.mp hx)
    (fun _ _ hqt => Option.noConfusion hqt) (fun _ _ _ hqt _ => Option.noConfusion hqt)
    (fun _ _ hs _ => Bool.noConfusion hs)).1.2.2 q nb hsome hnb

/-- On a square board, two in-bounds cells carry the same label exactly
when they are connected under the fence-blocked adjacency. -/
theorem compute_tags_iff {grid : Nat × Nat → Option Orient} {n : Nat}
    (q1 q2 : Nat × Nat) (h1 : InRect n n q1) :
    (compute_tags grid n n).app q1 = (compute_tags grid n n).app q2 ↔
      Reach grid n n q1 q2 := by
  constructor
  · intro heq
    obtain ⟨v, hv⟩ := Option.isSome_iff_exists.mp (compute_tags_some q1 h1)
    exact compute_tags_connected q1 q2 v hv (heq ▸ hv)
  · intro hreach
    induction hreach with
    | refl => rfl
    | tail hab hadj ih =>
      rename_i b c
      have hb : InRect n n b := reach_inRect hab h1
      have hstep := compute_tags_adj b c (compute_tags_some b hb) (mem_nbrs_iff.mpr hadj)
      rw [ih, ← hstep]

/-- `Reach` and the claim-worded `SpecReach` agree from an in-bounds
start. -/
theorem reach_iff_specReach {grid : Nat × Nat → Option Orient} {w h : Nat} {a b : Nat × Nat}
    (ha : InRect w h a) : Reach grid w h a b ↔ SpecReach grid w h a b := by
  constructor
  · intro hr
    induction hr with
    | refl => exact Relation.ReflTransGen.refl
    | tail hab hadj ih =>
      exact Relation.ReflTransGen.tail ih ((adj_iff_specAdj (reach_inRect hab ha)).mp hadj)
  · intro hr
    induction hr with
    | refl => exact Relation.ReflTransGen.refl
    | tail hab hadj ih =>
      exact Relation.ReflTransGen.tail ih ((adj_iff_specAdj ⟨hadj.1.1, hadj.1.2.1⟩).mpr hadj)

/-- The boundary test over freshly computed labels is exactly
non-connectivity to the goal boundary. -/
theorem block_test_iff {grid : Nat × Nat → Option Orient} {n : Nat} (p : Pawn)
    (hp : InRect n n p.pos) :
    block_test (compute_tags grid n n) n n p = true ↔
      ¬∃ dst ∈ Compass.cells p.side.oppo n n, Reach grid n n p.pos dst := by
  unfold block_test
  rw [List.all_eq_true]
  constructor
  · rintro hall ⟨dst, hdst, hreach⟩
    have hd := hall dst hdst
    rw [decide_eq_true_eq] at hd
    exact hd ((compute_tags_iff p.pos dst hp).mpr hreach)
  · intro hnone dst hdst
    rw [decide_eq_true_eq]
    intro heq
    exact hnone ⟨dst, hdst, (compute_tags_iff p.pos dst hp).mp heq⟩

/-! ### Claim C2: `is_blocking` decides goal reachability -/

/-- C2: on a square board with a clear cache, `is_blocking(pawn)` returns
true exactly when no cell of the boundary opposite the pawn's home side
is connected to the pawn's cell, where connectivity is the claim's
fence-blocked adjacency (`SpecAdj`): a VERTICAL fence at slot `(sc, sr)`
blocks the edges between columns `sc`/`sc+1` at rows `sr` and `sr+1`,
symmetrically for HORIZONTAL. -/
theorem claim2_is_blocking_iff (g : Quoridor) (p : Pawn) (hsq : g.height = g.width)
    (hc : g.cell_tags = none) (hx : p.pos.1 < g.width) (hy : p.pos.2 < g.height) :
    (g.is_blocking p).1 = true ↔
      ¬∃ dst ∈ Compass.cells p.side.oppo g.width g.height,
        SpecReach g.grid g.width g.height p.pos dst := by
  have hb : (g.is_blocking p).1 =
      block_test (compute_tags g.grid g.width g.height) g.width g.height p := by
    simp only [Quoridor.is_blocking, hc, Option.getD_none]
  rw [hsq] at hy
  rw [hb, hsq, block_test_iff p ⟨hx, hy⟩]
  refine not_congr ?_
  constructor
  · rintro ⟨dst, hdst, hr⟩
    exact ⟨dst, hdst, (reach_iff_specReach ⟨hx, hy⟩).mp hr⟩
  · rintro ⟨dst, hdst, hr⟩
    exact ⟨dst, hdst, (reach_iff_specReach ⟨hx, hy⟩).mpr hr⟩

/-- C2 witness: the theorem applied to `Quoridor(2, 2)` and its SOUTH
pawn. -/
theorem claim2_witness :
    (game22.is_blocking pawnS22).1 = true ↔
      ¬∃ dst ∈ Compass.cells pawnS22.side.oppo game22.width game22.height,
        SpecReach game22.grid game22.width game22.height pawnS22.pos dst :=
  claim2_is_blocking_iff game22 pawnS22 rfl rfl (by decide) (by decide)

/-! ### `move_region` correctness -/

/-- The traversal only ever grows the region and the visited set. -/
theorem move_region_aux_mono (g : Quoridor) :
    ∀ (fuel : Nat) (p : Nat × Nat) (st : List (Nat × Nat) × List (Nat × Nat)),
      st.1 ⊆ (g.move_region_aux fuel p st).1 ∧ st.2 ⊆ (g.move_region_aux fuel p st).2 := by
  intro fuel
  induction fuel with
  | zero => exact fun p st => ⟨fun x hx => hx, fun x hx => hx⟩
  | succ fuel ih =>
    intro p st
    simp only [Quoridor.move_region_aux]
    split
    · exact ⟨fun x hx => hx, fun x hx => hx⟩
    split
    · exact ⟨fun x hx => List.mem_insert_iff.mpr (Or.inr hx), fun x hx => hx⟩
    · refine foldl_preserve _
        (fun st' : List (Nat × Nat) × List (Nat × Nat) => st.1 ⊆ st'.1 ∧ st.2 ⊆ st'.2) ?_ _ _ ?_
      · intro b q hb
        have hq := ih q b
        exact ⟨hb.1.trans hq.1, hb.2.trans hq.2⟩
      · exact ⟨fun x hx => hx, fun x hx => List.mem_cons_of_mem p hx⟩

/-- Everything the traversal adds to the region is an empty cell reachable
from the start. -/
theorem move_region_aux_region (g : Quoridor) :
    ∀ (fuel : Nat) (p : Nat × Nat) (st : List (Nat × Nat) × List (Nat × Nat)) (x : Nat × Nat),
      x ∈ (g.move_region_aux fuel p st).1 →
      x ∈ st.1 ∨ (g.cells x = none ∧ Reach g.grid g.width g.height p x) := by
  intro fuel
  induction fuel with
  | zero => exact fun p st x hx => Or.inl hx
  | succ fuel ih =>
    intro p st x hx
    simp only [Quoridor.move_region_aux] at hx
    split at hx
    · exact Or.inl hx
    split at hx
    case isTrue hemp =>
      rcases List.mem_insert_iff.mp hx with heq | hx'
      · subst heq
        exact Or.inr ⟨hemp, Relation.ReflTransGen.refl⟩
      · exact Or.inl hx'
    case isFalse hemp =>
      have hfold : ∀ (l : List (Nat × Nat)) (st0 : List (Nat × Nat) × List (Nat × Nat)),
          (∀ y ∈ l, Adj g.grid g.width g.height p y) →
          x ∈ (l.foldl (fun st' q => g.move_region_aux fuel q st') st0).1 →
          x ∈ st0.1 ∨ (g.cells x = none ∧ Reach g.grid g.width g.height p x) := by
        intro l
        induction l with
        | nil => exact fun st0 _ hx0 => Or.inl hx0
        | cons a l ihl =>
          intro st0 hadj hx0
          simp only [List.foldl_cons] at hx0
          rcases ihl (g.move_region_aux fuel a st0)
              (fun y hy => hadj y (List.mem_cons_of_mem a hy)) hx0 with hA | hB
          · rcases ih a st0 x hA with hC | hC
            · exact Or.inl hC
            · refine Or.inr ⟨hC.1, ?_⟩
              exact Relation.ReflTransGen.head (hadj a (List.mem_cons_self a l)) hC.2
          · exact Or.inr hB
      exact hfold (nbrs g.grid g.width g.height p) (st.1, p :: st.2)
        (fun y hy => mem_nbrs_iff.mp hy) hx

/-- Everything the traversal marks visited is an occupied cell reachable
from the start. -/
theorem move_region_aux_visited (g : Quoridor) :
    ∀ (fuel : Nat) (p : Nat × Nat) (st : List (Nat × Nat) × List (Nat × Nat)) (x : Nat × Nat),
      x ∈ (g.move_region_aux fuel p st).2 →
      x ∈ st.2 ∨ (g.cells x ≠ none ∧ Reach g.grid g.width g.height p x) := by
  intro fuel
  induction fuel with
  | zero => exact fun p st x hx => Or.inl hx
  | succ fuel ih =>
    intro p st x hx
    simp only [Quoridor.move_region_aux] at hx
    split at hx
    · exact Or.inl hx
    split at hx
    case isTrue hemp => exact Or.inl hx
    case isFalse hemp =>
      have hfold : ∀ (l : List (Nat × Nat)) (st0 : List (Nat × Nat) × List (Nat × Nat)),
          (∀ y ∈ l, Adj g.grid g.width g.height p y) →
          x ∈ (l.foldl (fun st' q => g.move_region_aux fuel q st') st0).2 →
          x ∈ st0.2 ∨ (g.cells x ≠ none ∧ Reach g.grid g.width g.height p x) := by
        intro l
        induction l with
        | nil => exact fun st0 _ hx0 => Or.inl hx0
        | cons a l ihl =>
          intro st0 hadj hx0
          simp only [List.foldl_cons] at hx0
          rcases ihl (g.move_region_aux fuel a st0)
              (fun y hy => hadj y (List.mem_cons_of_mem a hy)) hx0 with hA | hB
          · rcases ih a st0 x hA with hC | hC
            · exact Or.inl hC
            · refine Or.inr ⟨hC.1, ?_⟩
              exact Relation.ReflTransGen.head (hadj a (List.mem_cons_self a l)) hC.2
          · exact Or.inr hB
      rcases hfold (nbrs g.grid g.width g.height p) (st.1, p :: st.2)
          (fun y hy => mem_nbrs_iff.mp hy) hx with hA | hB
      · rcases List.mem_cons.mp hA with heq | hx'
        · subst heq
          exact Or.inr ⟨hemp, Relation.ReflTransGen.refl⟩
        · exact Or.inl hx'
      · exact Or.inr hB

/-- A no-op: calling the traversal on an already visited cell. -/
theorem move_region_aux_noop (g : Quoridor) (fuel : Nat) (p : Nat × Nat)
    (st : List (Nat × Nat) × List (Nat × Nat)) (hv : p ∈ st.2) :
    g.move_region_aux fuel p st = st := by
  cases fuel with
  | zero => rfl
  | succ fuel =>
    simp only [Quoridor.move_region_aux]
    rw [if_pos hv]

/-- Visiting an empty unvisited cell just adds it to the region. -/
theorem move_region_aux_empty (g : Quoridor) (fuel : Nat) (p : Nat × Nat)
    (st : List (Nat × Nat) × List (Nat × Nat)) (h1 : 1 ≤ fuel) (hv : p ∉ st.2)
    (he : g.cells p = none) : g.move_region_aux fuel p st = (st.1.insert p, st.2) := by
  obtain ⟨fuel, rfl⟩ : ∃ f, fuel = f + 1 := ⟨fuel - 1, by omega⟩
  simp only [Quoridor.move_region_aux]
  rw [if_neg hv, if_pos he]

/-- Marking an in-bounds unvisited cell visited decreases the unvisited
count by exactly one. -/
theorem unvisCard_cons {w h : Nat} (visited : List (Nat × Nat)) (p : Nat × Nat)
    (hp : InRect w h p) (hv : p ∉ visited) :
    unvisCard w h (p :: visited) + 1 = unvisCard w h visited := by
  unfold unvisCard
  have hset : ((Finset.range w ×ˢ Finset.range h).filter fun q => q ∉ p :: visited) =
      ((Finset.range w ×ˢ Finset.range h).filter fun q => q ∉ visited).erase p := by
    ext q
    rw [Finset.mem_erase, Finset.mem_filter, Finset.mem_filter, List.mem_cons]
    constructor
    · rintro ⟨hq1, hq2⟩
      push_neg at hq2
      exact ⟨hq2.1, hq1, hq2.2⟩
    · rintro ⟨hqp, hq1, hq2⟩
      refine ⟨hq1, ?_⟩
      push_neg
      exact ⟨hqp, hq2⟩
  rw [hset]
  have hpmem : p ∈ (Finset.range w ×ˢ Finset.range h).filter fun q => q ∉ visited := by
    rw [Finset.mem_filter, Finset.mem_product, Finset.mem_range, Finset.mem_range]
    exact ⟨⟨hp.1, hp.2⟩, hv⟩
  rw [Finset.card_erase_of_mem hpmem]
  have hpos : 0 < ((Finset.range w ×ˢ Finset.range h).filter fun q => q ∉ visited).card :=
    Finset.card_pos.mpr ⟨p, hpmem⟩
  omega

/-- A larger visited set leaves fewer unvisited cells. -/
theorem unvisCard_mono {w h : Nat} (v1 v2 : List (Nat × Nat)) (hsub : v1 ⊆ v2) :
    unvisCard w h v2 ≤ unvisCard w h v1 := by
  apply Finset.card_le_card
  intro q hq
  rw [Finset.mem_filter] at hq ⊢
  exact ⟨hq.1, fun hmem => hq.2 (hsub hmem)⟩

/-- The unvisited count is at most the board area. -/
theorem unvisCard_le (w h : Nat) (visited : List (Nat × Nat)) :
    unvisCard w h visited ≤ w * h := by
  unfold unvisCard
  calc ((Finset.range w ×ˢ Finset.range h).filter fun q => q ∉ visited).card
      ≤ (Finset.range w ×ˢ Finset.range h).card := Finset.card_filter_le _ _
    _ = w * h := by rw [Finset.card_product, Finset.card_range, Finset.card_range]

/-- Visited sets stay within the board and hold only occupied cells. -/
theorem move_region_aux_visitedOK (g : Quoridor) (fuel : Nat) (p : Nat × Nat)
    (st : List (Nat × Nat) × List (Nat × Nat)) (hp : InRect g.width g.height p)
    (hOK : ∀ x ∈ st.2, InRect g.width g.height x ∧ g.cells x ≠ none) :
    ∀ x ∈ (g.move_region_aux fuel p st).2, InRect g.width g.height x ∧ g.cells x ≠ none := by
  intro x hx
  rcases move_region_aux_visited g fuel p st x hx with h | h
  · exact hOK x h
  · exact ⟨reach_inRect h.2 hp, h.1⟩

/-- Saturation of the move traversal: with sufficient fuel, the start is
visited if occupied, and every visited cell has each of its open
neighbours either in the region (if empty) or visited (if occupied). -/
theorem move_region_aux_sat (g : Quoridor) :
    ∀ (fuel : Nat) (p : Nat × Nat) (region visited : List (Nat × Nat)),
      InRect g.width g.height p →
      (∀ x ∈ visited, InRect g.width g.height x ∧ g.cells x ≠ none) →
      unvisCard g.width g.height visited + 1 ≤ fuel →
      (g.cells p ≠ none → p ∉ visited →
        p ∈ (g.move_region_aux fuel p (region, visited)).2) ∧
      (∀ x ∈ (g.move_region_aux fuel p (region, visited)).2, x ∈ visited ∨
        ∀ nb ∈ nbrs g.grid g.width g.height x,
          (g.cells nb = none → nb ∈ (g.move_region_aux fuel p (region, visited)).1) ∧
          (g.cells nb ≠ none → nb ∈ (g.move_region_aux fuel p (region, visited)).2)) := by
  intro fuel
  induction fuel with
  | zero => intro p region visited hp hOK hcard; omega
  | succ fuel ih =>
    intro p region visited hp hOK hcard
    by_cases hv : p ∈ visited
    · rw [move_region_aux_noop g (fuel + 1) p (region, visited) hv]
      exact ⟨fun _ hnv => absurd hv hnv, fun x hx => Or.inl hx⟩
    by_cases he : g.cells p = none
    · rw [move_region_aux_empty g (fuel + 1) p (region, visited) (by omega) hv he]
      exact ⟨fun hocc _ => absurd he hocc, fun x hx => Or.inl hx⟩
    have haux : g.move_region_aux (fuel + 1) p (region, visited) =
        (nbrs g.grid g.width g.height p).foldl
          (fun st' q => g.move_region_aux fuel q st') (region, p :: visited) := by
      simp only [Quoridor.move_region_aux]
      rw [if_neg hv, if_neg he]
    rw [haux]
    have hOKc : ∀ x ∈ p :: visited, InRect g.width g.height x ∧ g.cells x ≠ none := by
      intro x hx
      rcases List.mem_cons.mp hx with heq | hx'
      · subst heq
        exact ⟨hp, he⟩
      · exact hOK x hx'
    have hcardc : unvisCard g.width g.height (p :: visited) + 1 ≤ fuel := by
      have := @unvisCard_cons g.width g.height visited p hp hv
      omega
    have hfold : ∀ (l : List (Nat × Nat)) (st0 : List (Nat × Nat) × List (Nat × Nat)),
        (∀ y ∈ l, InRect g.width g.height y) →
        (∀ x ∈ st0.2, InRect g.width g.height x ∧ g.cells x ≠ none) →
        unvisCard g.width g.height st0.2 + 1 ≤ fuel →
        (∀ x ∈ st0.2, x ∈ p :: visited ∨
          ∀ nb ∈ nbrs g.grid g.width g.height x,
            (g.cells nb = none → nb ∈ st0.1) ∧ (g.cells nb ≠ none → nb ∈ st0.2)) →
        (∀ y ∈ l,
          (g.cells y = none →
            y ∈ (l.foldl (fun st' q => g.move_region_aux fuel q st') st0).1) ∧
          (g.cells y ≠ none →
            y ∈ (l.foldl (fun st' q => g.move_region_aux fuel q st') st0).2)) ∧
        (∀ x ∈ (l.foldl (fun st' q => g.move_region_aux fuel q st') st0).2,
          x ∈ p :: visited ∨
          ∀ nb ∈ nbrs g.grid g.width g.height x,
            (g.cells nb = none →
              nb ∈ (l.foldl (fun st' q => g.move_region_aux fuel q st') st0).1) ∧
            (g.cells nb ≠ none →
              nb ∈ (l.foldl (fun st' q => g.move_region_aux fuel q st') st0).2)) ∧
        st0.1 ⊆ (l.foldl (fun st' q => g.move_region_aux fuel q st') st0).1 ∧
        st0.2 ⊆ (l.foldl (fun st' q => g.move_region_aux fuel q st') st0).2 := by
      intro l
      induction l with
      | nil =>
        intro st0 _ _ _ hsat
        exact ⟨fun y hy => absurd hy (List.not_mem_nil y), hsat,
          fun x hx => hx, fun x hx => hx⟩
      | cons a l ihl =>
        intro st0 hyrect hOK0 hcard0 hsat0
        simp only [List.foldl_cons]
        have ha : InRect g.width g.height a := hyrect a (List.mem_cons_self a l)
        have hmono1 := move_region_aux_mono g fuel a st0
        have hOK1 := move_region_aux_visitedOK g fuel a st0 ha hOK0
        have hcard1 : unvisCard g.width g.height (g.move_region_aux fuel a st0).2 + 1 ≤ fuel := by
          have := @unvisCard_mono g.width g.height st0.2 (g.move_region_aux fuel a st0).2 hmono1.2
          omega
        have hsat1 : ∀ x ∈ (g.move_region_aux fuel a st0).2, x ∈ p :: visited ∨
            ∀ nb ∈ nbrs g.grid g.width g.height x,
              (g.cells nb = none → nb ∈ (g.move_region_aux fuel a st0).1) ∧
              (g.cells nb ≠ none → nb ∈ (g.move_region_aux fuel a st0).2) := by
          intro x hx
          rcases (ih a st0.1 st0.2 ha hOK0 hcard0).2 x hx with hx0 | hsx
          · rcases hsat0 x hx0 with hl | hsx0
            · exact Or.inl hl
            · refine Or.inr ?_
              intro nb hnb
              exact ⟨fun hne => hmono1.1 ((hsx0 nb hnb).1 hne),
                fun hocc => hmono1.2 ((hsx0 nb hnb).2 hocc)⟩
          · exact Or.inr hsx
        have hrest := ihl (g.move_region_aux fuel a st0)
          (fun y hy => hyrect y (List.mem_cons_of_mem a hy)) hOK1 hcard1 hsat1
        refine ⟨?_, hrest.2.1, hmono1.1.trans hrest.2.2.1, hmono1.2.trans hrest.2.2.2⟩
        intro y hy
        rcases List.mem_cons.mp hy with heq | hy'
        · subst heq
          constructor
          · intro hne
            have hynotv : y ∉ st0.2 := fun hmem => (hOK0 y hmem).2 hne
            have hyin : y ∈ (g.move_region_aux fuel y st0).1 := by
              rw [move_region_aux_empty g fuel y st0 (by omega) hynotv hne]
              exact List.mem_insert_self y st0.1
            exact hrest.2.2.1 hyin
          · intro hocc
            by_cases hyv : y ∈ st0.2
            · exact hrest.2.2.2 (hmono1.2 hyv)
            · exact hrest.2.2.2 ((ih y st0.1 st0.2 ha hOK0 hcard0).1 hocc hyv)
        · exact (hrest.1) y hy'
    have hmain := hfold (nbrs g.grid g.width g.height p) (region, p :: visited)
      (fun y hy => adj_inRect hp (mem_nbrs_iff.mp hy)) hOKc hcardc
      (fun x hx => Or.inl hx)
    constructor
    · intro _ _
      exact hmain.2.2.2 (List.mem_cons_self p visited)
    · intro x hx
      rcases hmain.2.1 x hx with hl | hs
      · rcases List.mem_cons.mp hl with heq | hx'
        · subst heq
          refine Or.inr ?_
          intro nb hnb
          exact ⟨fun hne => (hmain.1 nb hnb).1 hne, fun hocc2 => (hmain.1 nb hnb).2 hocc2⟩
        · exact Or.inl hx'
      · exact Or.inr hs

/-! ### Claim C6: move region contents and the jump rule -/

/-- C6: the move region never contains an occupied cell (the moving
pawn's own cell included, since it is occupied), and when an opposing
pawn sits on a cell adjacent to the (occupied) pawn cell with open edges
both to it and beyond it, the empty cell directly beyond is in the move
region. -/
theorem claim6_move_region (g : Quoridor) (p : Pawn) :
    (∀ x ∈ g.move_region p, g.cells x = none) ∧
    (∀ opp beyond : Nat × Nat,
      g.cells p.pos ≠ none →
      SpecAdj g.grid g.width g.height p.pos opp →
      SpecAdj g.grid g.width g.height opp beyond →
      g.cells opp ≠ none → g.cells beyond = none →
      beyond ∈ g.move_region p) := by
  constructor
  · intro x hx
    rcases move_region_aux_region g (g.width * g.height + 1) p.pos ([], []) x hx with h | h
    · exact absurd h (List.not_mem_nil x)
    · exact h.1
  · intro opp beyond hocc hadj1 hadj2 hoppocc hbempty
    have hp : InRect g.width g.height p.pos := ⟨hadj1.1.1, hadj1.1.2.1⟩
    have hfuel :
        unvisCard g.width g.height ([] : List (Nat × Nat)) + 1 ≤ g.width * g.height + 1 := by
      have := unvisCard_le g.width g.height []
      omega
    have hsat := move_region_aux_sat g (g.width * g.height + 1) p.pos [] [] hp
      (fun x hx => absurd hx (List.not_mem_nil x)) hfuel
    have hpvis : p.pos ∈ (g.move_region_aux (g.width * g.height + 1) p.pos ([], [])).2 :=
      hsat.1 hocc (List.not_mem_nil p.pos)
    rcases hsat.2 p.pos hpvis with hl | hsp
    · exact absurd hl (List.not_mem_nil p.pos)
    · have hoppmem : opp ∈ nbrs g.grid g.width g.height p.pos :=
        mem_nbrs_iff.mpr ((adj_iff_specAdj hp).mpr hadj1)
      have hoppvis := (hsp opp hoppmem).2 hoppocc
      rcases hsat.2 opp hoppvis with hl | hso
      · exact absurd hl (List.not_mem_nil opp)
      · have hopprect : InRect g.width g.height opp := ⟨hadj1.1.2.2.1, hadj1.1.2.2.2⟩
        have hbmem : beyond ∈ nbrs g.grid g.width g.height opp :=
          mem_nbrs_iff.mpr ((adj_iff_specAdj hopprect).mpr hadj2)
        exact (hso beyond hbmem).1 hbempty

/-- C6 witness: on `game33` the SOUTH pawn at `(1, 0)` jumps over the
NORTH pawn at `(1, 1)` to `(1, 2)`. -/
theorem claim6_witness : (1, 2) ∈ game33.move_region pawnS33 :=
  (claim6_move_region game33 pawnS33).2 (1, 1) (1, 2) (by decide) (by decide) (by decide)
    (by decide) (by decide)

/-! ### Analysing a successful `can_put_fence` -/

/-- `is_blocking` with a clear or freshly recomputed cache evaluates the
boundary test over the current grid's labels and caches them. -/
theorem is_blocking_eval (g : Quoridor) (p : Pawn)
    (hc : g.cell_tags = none ∨ g.cell_tags = some (compute_tags g.grid g.width g.height)) :
    g.is_blocking p = (block_test (compute_tags g.grid g.width g.height) g.width g.height p,
      { g with cell_tags := some (compute_tags g.grid g.width g.height) }) := by
  rcases hc with hc | hc <;>
    simp only [Quoridor.is_blocking, hc, Option.getD_none, Option.getD_some]

/-- If the short-circuiting `any(...)` loop reports no blocked pawn, then
the boundary test over the current grid fails for every listed pawn. -/
theorem any_blocking_false (ps : List Pawn) : ∀ (g : Quoridor),
    g.cell_tags = none ∨ g.cell_tags = some (compute_tags g.grid g.width g.height) →
    (any_blocking g ps).1 = false →
    ∀ p ∈ ps, block_test (compute_tags g.grid g.width g.height) g.width g.height p = false := by
  induction ps with
  | nil => intro g _ _ p hp; exact absurd hp (List.not_mem_nil p)
  | cons q ps ih =>
    intro g hc hfalse p hp
    simp only [any_blocking] at hfalse
    rw [is_blocking_eval g q hc] at hfalse
    split at hfalse
    case isTrue hb => exact absurd hfalse (by simp)
    case isFalse hb =>
      rcases List.mem_cons.mp hp with heq | hp'
      · subst heq
        rw [Bool.not_eq_true] at hb
        exact hb
      · exact ih { g with cell_tags := some (compute_tags g.grid g.width g.height) }
          (Or.inr rfl) hfalse p hp'

/-- A successful `can_put_fence` (on a clear cache) certifies that no
pawn fails the boundary test on the grid with the candidate fence
inserted. -/
theorem can_put_fence_true (g : Quoridor) (c : Nat × Nat) (o : Orient)
    (hc : g.cell_tags = none) (htrue : (g.can_put_fence c o).1 = true) :
    ∀ p ∈ g.pawns,
      block_test (compute_tags (Function.update g.grid c (some o)) g.width g.height)
        g.width g.height p = false := by
  unfold Quoridor.can_put_fence at htrue
  split at htrue
  · exact absurd htrue (by simp)
  split at htrue
  · exact absurd htrue (by simp)
  split at htrue
  · exact absurd htrue (by simp)
  intro p hp
  have hr : (any_blocking { g with grid := Function.update g.grid c (some o) }
      ({ g with grid := Function.update g.grid c (some o) } : Quoridor).pawns).1 = false := by
    simpa using htrue
  exact any_blocking_false
    ({ g with grid := Function.update g.grid c (some o) } : Quoridor).pawns
    { g with grid := Function.update g.grid c (some o) } (Or.inl hc) hr p hp

/-- A failed boundary test is exactly a path to the goal boundary. -/
theorem block_test_false {grid : Nat × Nat → Option Orient} {n : Nat} (p : Pawn)
    (hp : InRect n n p.pos)
    (hfalse : block_test (compute_tags grid n n) n n p = false) :
    ∃ dst ∈ Compass.cells p.side.oppo n n, Reach grid n n p.pos dst := by
  by_contra hn
  have htrue := (block_test_iff p hp).mpr hn
  rw [hfalse] at htrue
  exact Bool.noConfusion htrue

/-! ### The reachable-state invariant -/

/-- On the empty grid, a cell reaches any cell directly above it. -/
theorem reach_up_empty (c : Nat) : ∀ (k r : Nat), r + k < 9 →
    Reach (fun _ => none) 9 9 (c, r) (c, r + k) := by
  intro k
  induction k with
  | zero => exact fun r _ => Relation.ReflTransGen.refl
  | succ k ih =>
    intro r hbound
    have hstep : Adj (fun _ => none) 9 9 (c, r + k) (c, r + k + 1) := by
      refine Or.inr (Or.inr (Or.inr ⟨⟨by omega, ?_, ?_⟩, rfl⟩))
      · exact Or.inr fun hcon => Option.noConfusion hcon
      · exact Or.inr fun hcon => Option.noConfusion hcon
    exact Relation.ReflTransGen.tail (ih r (by omega)) hstep

/-- The default initial game satisfies the invariant. -/
theorem inv_init : StateInv (Quoridor.init 9 9) := by
  refine ⟨rfl, rfl, rfl, ?_⟩
  intro p hp
  have hp' : p = ({ side := Compass.south, pos := (4, 0) } : Pawn) ∨
      p = ({ side := Compass.north, pos := (4, 8) } : Pawn) := by
    rcases List.mem_cons.mp hp with heq | hp2
    · exact Or.inl heq
    · rcases List.mem_cons.mp hp2 with heq | hp3
      · exact Or.inr heq
      · exact absurd hp3 (List.not_mem_nil p)
  rcases hp' with rfl | rfl
  · refine ⟨⟨by decide, by decide⟩, by decide, ?_⟩
    refine ⟨(4, 8), by decide, ?_⟩
    exact reach_up_empty 4 8 0 (by omega)
  · refine ⟨⟨by decide, by decide⟩, by decide, ?_⟩
    refine ⟨(4, 0), by decide, ?_⟩
    have h1 : Reach (fun _ => none) 9 9 (4, 0) (4, 8) := reach_up_empty 4 8 0 (by omega)
    exact reach_symm h1 ⟨by decide, by decide⟩

/-- `NotBlocked` only depends on a pawn's side and position. -/
theorem notBlocked_congr {grid : Nat × Nat → Option Orient} {p q : Pawn}
    (hside : q.side = p.side) (hpos : q.pos = p.pos) (h : NotBlocked grid p) :
    NotBlocked grid q := by
  obtain ⟨dst, hdst, hr⟩ := h
  exact ⟨dst, hside ▸ hdst, hpos ▸ hr⟩

/-- One validated action preserves the invariant. -/
theorem inv_step (g g' : Quoridor) (a : QAction) (hInv : StateInv g)
    (hstep : g.step a = some g') : StateInv g' := by
  obtain ⟨hw, hh, hc, hpawns⟩ := hInv
  cases a with
  | move dst =>
    simp only [Quoridor.step, Quoridor.move] at hstep
    split at hstep
    · exact absurd hstep (by simp)
    case h_2 pawn hget =>
      split at hstep
      · exact absurd hstep (by simp)
      case isFalse hdmem =>
        have hdst : dst ∈ g.move_region pawn := not_not.mp hdmem
        have hpawn_in : pawn ∈ g.pawns := List.get?_mem hget
        have hpawnInv := hpawns pawn hpawn_in
        have hposrect : InRect 9 9 pawn.pos := ⟨hpawnInv.1.1, hpawnInv.1.2⟩
        have hreach : g.cells dst = none ∧ Reach g.grid g.width g.height pawn.pos dst := by
          rcases move_region_aux_region g (g.width * g.height + 1) pawn.pos ([], []) dst
              hdst with h | h
          · exact absurd h (List.not_mem_nil dst)
          · exact h
        rw [hw, hh] at hreach
        have hdstrect : InRect 9 9 dst := reach_inRect hreach.2 hposrect
        have hnb : ∀ q : Pawn, q.side = pawn.side → q.pos = dst → NotBlocked g.grid q := by
          intro q hqs hqp
          obtain ⟨gd, hgd, hgr⟩ := hpawnInv.2.2
          refine ⟨gd, hqs ▸ hgd, hqp ▸ ?_⟩
          exact Relation.ReflTransGen.trans (reach_symm hreach.2 hposrect) hgr
        have hset : ∀ (pw : Pawn), pw.side = pawn.side → pw.pos = dst →
            pw.num_fences = pawn.num_fences →
            ∀ p ∈ g.pawns.set g.curr_pawn pw,
              (p.pos.1 < 9 ∧ p.pos.2 < 9) ∧ 0 ≤ p.num_fences ∧ NotBlocked g.grid p := by
          intro pw hs hpp hf p hp
          rcases List.mem_or_eq_of_mem_set hp with hold | hnew
          · exact hpawns p hold
          · subst hnew
            refine ⟨hpp ▸ ⟨hdstrect.1, hdstrect.2⟩, ?_, hnb p hs hpp⟩
            rw [hf]
            exact hpawnInv.2.1
        split at hstep
        · replace hstep := Option.some.inj hstep
          subst hstep
          exact ⟨hw, hh, hc, hset { pawn with pos := dst, win := true } rfl rfl rfl⟩
        · replace hstep := Option.some.inj hstep
          subst hstep
          exact ⟨hw, hh, hc, hset { pawn with pos := dst } rfl rfl rfl⟩
  | put_fence c o =>
    simp only [Quoridor.step, Quoridor.put_fence] at hstep
    split at hstep
    · exact absurd hstep (by simp)
    case h_2 player hget =>
      split at hstep
      · exact absurd hstep (by simp)
      case isFalse hfen =>
        split at hstep
        · exact absurd hstep (by simp)
        case isFalse hcan =>
          have hcan' : (g.can_put_fence c o).1 = true := by
            rcases hb : (g.can_put_fence c o).1 with _ | _
            · exact absurd hb hcan
            · rfl
          replace hstep := Option.some.inj hstep
          subst hstep
          have hrestore : (g.can_put_fence c o).2 = g := can_put_fence_restores g c o hc
          have hblock := can_put_fence_true g c o hc hcan'
          rw [hw, hh] at hblock
          refine ⟨?_, ?_, ?_, ?_⟩
          · show (g.can_put_fence c o).2.width = 9
            rw [hrestore]; exact hw
          · show (g.can_put_fence c o).2.height = 9
            rw [hrestore]; exact hh
          · show (g.can_put_fence c o).2.cell_tags = none
            rw [hrestore]; exact hc
          · show ∀ p ∈ (g.can_put_fence c o).2.pawns.set g.curr_pawn
                { player with num_fences := player.num_fences - 1 },
              (p.pos.1 < 9 ∧ p.pos.2 < 9) ∧ 0 ≤ p.num_fences ∧
                NotBlocked (Function.update (g.can_put_fence c o).2.grid c (some o)) p
            rw [hrestore]
            intro p hp
            have hmem : p = { player with num_fences := player.num_fences - 1 } ∨
                p ∈ g.pawns := by
              rcases List.mem_or_eq_of_mem_set hp with hold | hnew
              · exact Or.inr hold
              · exact Or.inl hnew
            have hfrom : ∃ p0 ∈ g.pawns, p0.side = p.side ∧ p0.pos = p.pos ∧
                0 ≤ p.num_fences := by
              rcases hmem with heq | hold
              · subst heq
                refine ⟨player, List.get?_mem hget, rfl, rfl, ?_⟩
                show (0 : Int) ≤ player.num_fences - 1
                have : ¬player.num_fences ≤ 0 := hfen
                omega
              · exact ⟨p, hold, rfl, rfl, (hpawns p hold).2.1⟩
            obtain ⟨p0, hp0mem, hp0s, hp0p, hpf⟩ := hfrom
            have hp0rect : InRect 9 9 p0.pos := ⟨(hpawns p0 hp0mem).1.1, (hpawns p0 hp0mem).1.2⟩
            have hbt := hblock p0 hp0mem
            have hnb0 := block_test_false p0 hp0rect hbt
            refine ⟨?_, hpf, ?_⟩
            · rw [← hp0p]
              exact ⟨hp0rect.1, hp0rect.2⟩
            · refine notBlocked_congr hp0s.symm hp0p.symm ?_
              exact hnb0
  
/-- Running validated actions preserves the invariant. -/
theorem inv_run : ∀ (acts : List QAction) (g0 g : Quoridor), StateInv g0 →
    g0.run acts = some g → StateInv g := by
  intro acts
  induction acts with
  | nil =>
    intro g0 g h0 hrun
    simp only [Quoridor.run] at hrun
    exact (Option.some.inj hrun) ▸ h0
  | cons a acts ih =>
    intro g0 g h0 hrun
    simp only [Quoridor.run] at hrun
    split at hrun
    · exact absurd hrun (by simp)
    case h_2 g1 hstep => exact ih g1 g (inv_step g0 g1 a h0 hstep) hrun

/-! ### Claim C1: reachable states never block a pawn -/

/-- C1: in every state reachable from the default initial game by
validated actions, every pawn's cell is connected (under the claim's
fence-blocked adjacency) to some cell of its goal boundary, and
`is_blocking` returns false for it. -/
theorem claim1_reachable_never_blocked (g : Quoridor) (hreach : Reachable g) :
    ∀ p ∈ g.pawns,
      (∃ dst ∈ Compass.cells p.side.oppo 9 9, SpecReach g.grid 9 9 p.pos dst) ∧
        (g.is_blocking p).1 = false := by
  obtain ⟨acts, hacts⟩ := hreach
  obtain ⟨hw, hh, hc, hpawns⟩ := inv_run acts (Quoridor.init 9 9) g inv_init hacts
  intro p hp
  have hpi := hpawns p hp
  have hrect : InRect 9 9 p.pos := ⟨hpi.1.1, hpi.1.2⟩
  obtain ⟨dst, hdst, hr⟩ := hpi.2.2
  refine ⟨⟨dst, hdst, (reach_iff_specReach hrect).mp hr⟩, ?_⟩
  have hb : (g.is_blocking p).1 =
      block_test (compute_tags g.grid g.width g.height) g.width g.height p := by
    simp only [Quoridor.is_blocking, hc, Option.getD_none]
  rw [hb, hw, hh]
  rcases hbool : block_test (compute_tags g.grid 9 9) 9 9 p with _ | _
  · rfl
  · have hnone := (block_test_iff p hrect).mp hbool
    exact absurd ⟨dst, hdst, hr⟩ hnone

/-- C1 witness: the theorem applied to the initial game itself and its
SOUTH pawn. -/
theorem claim1_witness :
    (∃ dst ∈ Compass.cells pawnS9.side.oppo 9 9,
      SpecReach (Quoridor.init 9 9).grid 9 9 pawnS9.pos dst) ∧
      ((Quoridor.init 9 9).is_blocking pawnS9).1 = false :=
  claim1_reachable_never_blocked (Quoridor.init 9 9) ⟨[], rfl⟩ pawnS9 (by decide)

/-! ### Claim C8: fence inventory accounting -/

/-- C8: a successful validated `put_fence` replaces exactly the placing
pawn's entry with its count decremented by one (all other entries
unchanged, being a single `set`); with a count at zero (or below) the
call is rejected before any mutation; and every reachable state has only
non-negative counts. -/
theorem claim8_fence_counts :
    (∀ (g g' : Quoridor) (c : Nat × Nat) (o : Orient) (player : Pawn),
      g.pawns.get? g.curr_pawn = some player → g.put_fence c o = some g' →
      g'.pawns = g.pawns.set g.curr_pawn
        { player with num_fences := player.num_fences - 1 }) ∧
    (∀ (g : Quoridor) (c : Nat × Nat) (o : Orient) (player : Pawn),
      g.pawns.get? g.curr_pawn = some player → player.num_fences ≤ 0 →
      g.put_fence c o = none) ∧
    (∀ g : Quoridor, Reachable g → ∀ p ∈ g.pawns, 0 ≤ p.num_fences) := by
  refine ⟨?_, ?_, ?_⟩
  · intro g g' c o player hget hsucc
    simp only [Quoridor.put_fence, hget] at hsucc
    split at hsucc
    · exact absurd hsucc (by simp)
    split at hsucc
    · exact absurd hsucc (by simp)
    replace hsucc := Option.some.inj hsucc
    subst hsucc
    show (g.can_put_fence c o).2.pawns.set g.curr_pawn
        { player with num_fences := player.num_fences - 1 } =
      g.pawns.set g.curr_pawn { player with num_fences := player.num_fences - 1 }
    obtain ⟨ct, gr, hr2⟩ := can_put_fence_snd g c o
    rw [hr2]
  · intro g c o player hget hle
    simp only [Quoridor.put_fence, hget]
    rw [if_pos hle]
  · intro g hreach p hp
    obtain ⟨acts, hacts⟩ := hreach
    exact ((inv_run acts (Quoridor.init 9 9) g inv_init hacts).2.2.2 p hp).2.1

/-- C8 witness: rejection on an exhausted inventory, on the concrete
state `gameZeroFences`. -/
theorem claim8_witness : gameZeroFences.put_fence (0, 0) Orient.horz = none :=
  claim8_fence_counts.2.1 gameZeroFences (0, 0) Orient.horz
    { side := Compass.south, pos := (1, 0), num_fences := 0 } (by decide) (by decide)

/-! ### Claim C10: indexing of the label array -/

/-- Setting at an index past the end is a no-op. -/
theorem set_oob {α : Type} : ∀ (l : List α) (idx : Nat) (a : α),
    l.length ≤ idx → l.set idx a = l := by
  intro l
  induction l with
  | nil => intro idx a _; rfl
  | cons x l ih =>
    intro idx a h
    cases idx with
    | zero => simp at h
    | succ idx =>
      show x :: l.set idx a = x :: l
      rw [ih idx a (by simpa using h)]

/-- A successful checked read certifies in-bounds indices. -/
theorem getE_some_bounds {α : Type} {xss : List (List α)} {c r m k : Nat}
    (hs : shapeL xss m k) (h : (getE xss c r).isSome) : c < m ∧ r < k := by
  unfold getE at h
  rcases hc : xss.get? c with _ | xs
  · rw [hc] at h
    exact absurd h (by simp)
  · rw [hc] at h
    replace h : (xs.get? r).isSome := h
    constructor
    · by_contra hge
      have hn : xss.get? c = none := List.get?_eq_none.mpr (by rw [hs.1]; omega)
      rw [hn] at hc
      exact Option.noConfusion hc
    · have hxs : xs.length = k := hs.2 xs (List.get?_mem hc)
      by_contra hge
      have hn : xs.get? r = none := List.get?_eq_none.mpr (by omega)
      rw [hn] at h
      exact Bool.noConfusion h

/-- In-bounds reads succeed. -/
theorem getE_isSome_of_bounds {α : Type} {xss : List (List α)} {c r m k : Nat}
    (hs : shapeL xss m k) (hc : c < m) (hr : r < k) : (getE xss c r).isSome := by
  unfold getE
  rcases hget : xss.get? c with _ | xs
  · rw [List.get?_eq_none] at hget
    rw [hs.1] at hget
    omega
  · have hxs : xs.length = k := hs.2 xs (List.get?_mem hget)
    show (xs.get? r).isSome
    rw [List.get?_eq_get (by omega)]
    rfl

/-- Reads fail when every row is empty. -/
theorem getE_none_of_zero_width {α : Type} {xss : List (List α)} {c r m : Nat}
    (hs : shapeL xss m 0) : getE xss c r = none := by
  unfold getE
  rcases hget : xss.get? c with _ | xs
  · rfl
  · have hxs : xs.length = 0 := hs.2 xs (List.get?_mem hget)
    show xs.get? r = none
    exact List.get?_eq_none.mpr (by omega)

/-- Reads fail when there are no rows. -/
theorem getE_none_of_zero_height {α : Type} {xss : List (List α)} {c r : Nat}
    (hs : shapeL xss 0 k) : getE xss c r = none := by
  unfold getE
  rcases hget : xss.get? c with _ | xs
  · rfl
  · have : xss.get? c = none := List.get?_eq_none.mpr (by rw [hs.1]; omega)
    rw [this] at hget
    exact Option.noConfusion hget

/-- Writing one cell preserves the array shape. -/
theorem setE_shape {α : Type} {xss : List (List α)} {m k : Nat} (hs : shapeL xss m k)
    (c r : Nat) (v : α) : shapeL (setE xss c r v) m k := by
  by_cases hclt : c < xss.length
  · refine ⟨by rw [setE, List.length_set]; exact hs.1, ?_⟩
    intro row hrow
    rcases List.mem_or_eq_of_mem_set hrow with hmem | heq
    · exact hs.2 row hmem
    · subst heq
      rcases hget : xss.get? c with _ | xs
      · rw [List.get?_eq_none] at hget
        omega
      · have hxs : xs.length = k := hs.2 xs (List.get?_mem hget)
        show (xs.set r v).length = k
        rw [List.length_set]
        exact hxs
  · unfold setE
    rw [set_oob xss c _ (by omega)]
    exact hs

/-- The initial all-`None` allocation has the allocated shape. -/
theorem replicate_shape {α : Type} (m k : Nat) (v : α) :
    shapeL (List.replicate m (List.replicate k v)) m k := by
  refine ⟨List.length_replicate m _, ?_⟩
  intro row hrow
  rw [List.eq_of_mem_replicate hrow]
  exact List.length_replicate k v

/-- Decompose a successful `Option` bind. -/
theorem bindM_some {α β : Type} {x : Option α} {f : α → Option β} {out : β}
    (h : x >>= f = some out) : ∃ v, x = some v ∧ f v = some out := by
  rcases hx : x with _ | v
  · rw [hx] at h
    exact absurd h (by simp)
  · rw [hx] at h
    exact ⟨v, rfl, h⟩

/-- Compose a successful `Option` bind. -/
theorem bindM_isSome {α β : Type} {x : Option α} {f : α → Option β}
    (hx : x.isSome) (hf : ∀ v, x = some v → (f v).isSome) : (x >>= f).isSome := by
  obtain ⟨v, hv⟩ := Option.isSome_iff_exists.mp hx
  rw [hv]
  exact hf v hv

/-- A guard half succeeds when its read (if reached) is in bounds. -/
theorem guardL_isSome {grid : List (List (Option Orient))} {skip : Bool} {slot : Nat × Nat}
    {o : Orient} (h : skip = false → (getE grid slot.1 slot.2).isSome) :
    (guardL grid skip slot o).isSome := by
  unfold guardL
  split
  · rfl
  case isFalse hs =>
    have hread := h (by revert hs; cases skip <;> simp)
    obtain ⟨v, hv⟩ := Option.isSome_iff_exists.mp hread
    rw [hv]
    rfl

/-- A successful exploration branch either left the array unchanged or is
a successful recursive fill. -/
theorem branch_cases {β : Type} {cond : Prop} [Decidable cond] {G1 G2 : Option Bool}
    {rec : Option β} {x y : β}
    (h : (if cond then do
        let a ← G1
        if a then do
          let b ← G2
          if b then rec else pure x
        else pure x
      else pure x) = some y) : y = x ∨ rec = some y := by
  split at h
  · obtain ⟨a, ha, h⟩ := bindM_some h
    split at h
    · obtain ⟨b, hb, h⟩ := bindM_some h
      split at h
      · exact Or.inr h
      · exact Or.inl (Option.some.inj h).symm
    · exact Or.inl (Option.some.inj h).symm
  · exact Or.inl (Option.some.inj h).symm

/-- An exploration branch succeeds when its guards read in bounds and the
recursive call succeeds. -/
theorem branch_total {β : Type} {cond : Prop} [Decidable cond] {G1 G2 : Option Bool}
    {rec : Option β} {x : β} (hg1 : cond → G1.isSome) (hg2 : cond → G2.isSome)
    (hrec : cond → rec.isSome) :
    (if cond then do
        let a ← G1
        if a then do
          let b ← G2
          if b then rec else pure x
        else pure x
      else pure x).isSome := by
  split
  case isTrue hcond =>
    obtain ⟨a, ha⟩ := Option.isSome_iff_exists.mp (hg1 hcond)
    rw [ha]
    show (if a then (do
        let b ← G2
        if b then rec else pure x) else pure x).isSome
    split
    · obtain ⟨b, hb⟩ := Option.isSome_iff_exists.mp (hg2 hcond)
      rw [hb]
      show (if b then rec else pure x).isSome
      split
      · exact hrec hcond
      · rfl
    · rfl
  · rfl

/-- A successful list-model fill preserves the array shape. -/
theorem fill_cellsL_shape {grid : List (List (Option Orient))} {m k : Nat} :
    ∀ (fuel : Nat) (cls cls' : List (List (Option Nat))) (p : Nat × Nat) (tag : Nat),
      fill_cellsL grid fuel cls p tag = some cls' → shapeL cls m k → shapeL cls' m k := by
  intro fuel
  induction fuel with
  | zero =>
    intro cls cls' p tag h hs
    exact (Option.some.inj h) ▸ hs
  | succ fuel ih =>
    intro cls cls' p tag h hs
    simp only [fill_cellsL] at h
    obtain ⟨row0, h0, h⟩ := bindM_some h
    obtain ⟨cur, hcur, h⟩ := bindM_some h
    split at h
    · exact (Option.some.inj h) ▸ hs
    · have hs0 : shapeL (setE cls p.1 p.2 (some tag)) m k := setE_shape hs _ _ _
      obtain ⟨cls1, hb1, h⟩ := bindM_some h
      have hs1 : shapeL cls1 m k := by
        rcases branch_cases hb1 with heq | hrec
        · exact heq ▸ hs0
        · exact ih _ _ _ _ hrec hs0
      obtain ⟨cls2, hb2, h⟩ := bindM_some h
      have hs2 : shapeL cls2 m k := by
        rcases branch_cases hb2 with heq | hrec
        · exact heq ▸ hs1
        · exact ih _ _ _ _ hrec hs1
      obtain ⟨cls3, hb3, h⟩ := bindM_some h
      have hs3 : shapeL cls3 m k := by
        rcases branch_cases hb3 with heq | hrec
        · exact heq ▸ hs2
        · exact ih _ _ _ _ hrec hs2
      rcases branch_cases h with heq | hrec
      · exact heq ▸ hs3
      · exact ih _ _ _ _ hrec hs3

/-- When the fence grid has the `(n-1) × (n-1)` allocation of a square
`n × n` board, the list-model flood fill succeeds from every in-bounds
start position on every label array of shape `n × n`: all of its index
accesses are in bounds. -/
theorem fill_cellsL_isSome {grid : List (List (Option Orient))} {n : Nat}
    (hg : shapeL grid (n - 1) (n - 1)) :
    ∀ (fuel : Nat) (cls : List (List (Option Nat))) (p : Nat × Nat) (tag : Nat),
      shapeL cls n n → p.1 < n → p.2 < n →
      (fill_cellsL grid fuel cls p tag).isSome := by
  intro fuel
  induction fuel with
  | zero =>
    intro cls p tag hs hx hy
    rfl
  | succ fuel ih =>
    intro cls p tag hs hx hy
    have hw : cls.length = n := hs.1
    simp only [fill_cellsL]
    refine bindM_isSome ?_ ?_
    · rw [List.get?_eq_get (show 0 < cls.length by omega)]
      rfl
    intro row0 h0
    have hlen : row0.length = n := hs.2 row0 (List.get?_mem h0)
    refine bindM_isSome (getE_isSome_of_bounds hs hx hy) ?_
    intro cur hcur
    split
    · rfl
    · have hs0 : shapeL (setE cls p.1 p.2 (some tag)) n n := setE_shape hs p.1 p.2 _
      refine bindM_isSome ?_ ?_
      · refine branch_total ?_ ?_ ?_
        · intro hcond
          refine guardL_isSome ?_
          intro hskip
          have h2 : p.2 ≠ 0 := of_decide_eq_false hskip
          show (getE grid (p.1 - 1) (p.2 - 1)).isSome
          exact getE_isSome_of_bounds hg (by omega) (by omega)
        · intro hcond
          refine guardL_isSome ?_
          intro hskip
          have h2 : p.2 ≠ row0.length - 1 := of_decide_eq_false hskip
          rw [hlen] at h2
          show (getE grid (p.1 - 1) p.2).isSome
          exact getE_isSome_of_bounds hg (by omega) (by omega)
        · intro hcond
          exact ih _ (p.1 - 1, p.2) _ hs0 (by show p.1 - 1 < n; omega)
            (by show p.2 < n; omega)
      intro cls1 hb1
      have hs1 : shapeL cls1 n n := by
        rcases branch_cases hb1 with heq | hrec
        · exact heq ▸ hs0
        · exact fill_cellsL_shape _ _ _ _ _ hrec hs0
      refine bindM_isSome ?_ ?_
      · refine branch_total ?_ ?_ ?_
        · intro hcond
          refine guardL_isSome ?_
          intro hskip
          have h2 : p.2 ≠ 0 := of_decide_eq_false hskip
          show (getE grid p.1 (p.2 - 1)).isSome
          exact getE_isSome_of_bounds hg (by omega) (by omega)
        · intro hcond
          refine guardL_isSome ?_
          intro hskip
          have h2 : p.2 ≠ row0.length - 1 := of_decide_eq_false hskip
          rw [hlen] at h2
          show (getE grid p.1 p.2).isSome
          exact getE_isSome_of_bounds hg (by omega) (by omega)
        · intro hcond
          exact ih _ (p.1 + 1, p.2) _ hs1 (by show p.1 + 1 < n; omega)
            (by show p.2 < n; omega)
      intro cls2 hb2
      have hs2 : shapeL cls2 n n := by
        rcases branch_cases hb2 with heq | hrec
        · exact heq ▸ hs1
        · exact fill_cellsL_shape _ _ _ _ _ hrec hs1
      refine bindM_isSome ?_ ?_
      · refine branch_total ?_ ?_ ?_
        · intro hcond
          refine guardL_isSome ?_
          intro hskip
          have h2 : p.1 ≠ 0 := of_decide_eq_false hskip
          show (getE grid (p.1 - 1) (p.2 - 1)).isSome
          exact getE_isSome_of_bounds hg (by omega) (by omega)
        · intro hcond
          refine guardL_isSome ?_
          intro hskip
          have h2 : p.1 ≠ cls.length - 1 := of_decide_eq_false hskip
          show (getE grid p.1 (p.2 - 1)).isSome
          exact getE_isSome_of_bounds hg (by omega) (by omega)
        · intro hcond
          exact ih _ (p.1, p.2 - 1) _ hs2 (by show p.1 < n; omega)
            (by show p.2 - 1 < n; omega)
      intro cls3 hb3
      have hs3 : shapeL cls3 n n := by
        rcases branch_cases hb3 with heq | hrec
        · exact heq ▸ hs2
        · exact fill_cellsL_shape _ _ _ _ _ hrec hs2
      refine branch_total ?_ ?_ ?_
      · intro hcond
        rw [hlen] at hcond
        refine guardL_isSome ?_
        intro hskip
        have h2 : p.1 ≠ 0 := of_decide_eq_false hskip
        show (getE grid (p.1 - 1) p.2).isSome
        exact getE_isSome_of_bounds hg (by omega) (by omega)
      · intro hcond
        rw [hlen] at hcond
        refine guardL_isSome ?_
        intro hskip
        have h2 : p.1 ≠ cls.length - 1 := of_decide_eq_false hskip
        show (getE grid p.1 p.2).isSome
        exact getE_isSome_of_bounds hg (by omega) (by omega)
      · intro hcond
        rw [hlen] at hcond
        exact ih _ (p.1, p.2 + 1) _ hs3 (by show p.1 < n; omega)
          (by show p.2 + 1 < n; omega)

/-- The first thing a labelling step does is read the label array at the
visited position, so a successful step forces that access in bounds. -/
theorem tag_stepL_isSome_read {grid : List (List (Option Orient))} {w h : Nat}
    {st : List (List (Option Nat)) × Nat} {pos : Nat × Nat}
    (hs : (tag_stepL grid w h st pos).isSome) : (getE st.1 pos.1 pos.2).isSome := by
  unfold tag_stepL at hs
  rcases hx : getE st.1 pos.1 pos.2 with _ | v
  · rw [hx] at hs
    exact Bool.noConfusion hs
  · rfl

/-- A successful labelling step preserves the shape of the label array. -/
theorem tag_stepL_shape {grid : List (List (Option Orient))} {w h m k : Nat}
    {st st' : List (List (Option Nat)) × Nat} {pos : Nat × Nat}
    (hstep : tag_stepL grid w h st pos = some st') (hs : shapeL st.1 m k) :
    shapeL st'.1 m k := by
  unfold tag_stepL at hstep
  obtain ⟨cur, hcur, hstep⟩ := bindM_some hstep
  split at hstep
  · exact (Option.some.inj hstep) ▸ hs
  · obtain ⟨cls, hcls, hstep⟩ := bindM_some hstep
    have hsh := fill_cellsL_shape _ _ _ _ _ hcls hs
    cases Option.some.inj hstep
    exact hsh

/-- On a square board every labelling step succeeds. -/
theorem tag_stepL_total {grid : List (List (Option Orient))} {n : Nat}
    (hg : shapeL grid (n - 1) (n - 1)) {st : List (List (Option Nat)) × Nat}
    {pos : Nat × Nat} (hs : shapeL st.1 n n) (hx : pos.1 < n) (hy : pos.2 < n) :
    (tag_stepL grid n n st pos).isSome := by
  unfold tag_stepL
  refine bindM_isSome (getE_isSome_of_bounds hs hx hy) ?_
  intro cur hcur
  split
  · rfl
  · refine bindM_isSome (fill_cellsL_isSome hg _ _ _ _ hs hx hy) ?_
    intro cls hcls
    rfl

/-- A successful monadic fold over `Option` preserves any invariant its
steps preserve. -/
theorem foldlM_inv {α β : Type} (f : β → α → Option β) (P : β → Prop)
    (hP : ∀ b x b', f b x = some b' → P b → P b') :
    ∀ (l : List α) (b out : β), l.foldlM f b = some out → P b → P out := by
  intro l
  induction l with
  | nil =>
    intro b out h hb
    exact (Option.some.inj h) ▸ hb
  | cons a l ih =>
    intro b out h hb
    rw [List.foldlM_cons] at h
    obtain ⟨b1, hb1, hrest⟩ := bindM_some h
    exact ih b1 out hrest (hP _ _ _ hb1 hb)

/-- Decompose a successful monadic fold: every list element was processed
successfully from some intermediate state satisfying the invariant. -/
theorem foldlM_some_of_mem {α β : Type} (f : β → α → Option β) (P : β → Prop)
    (hP : ∀ b x b', f b x = some b' → P b → P b') :
    ∀ (l : List α) (b : β), P b → (l.foldlM f b).isSome →
      ∀ x ∈ l, ∃ b', P b' ∧ (f b' x).isSome := by
  intro l
  induction l with
  | nil =>
    intro b hb hfold x hx
    simp at hx
  | cons a l ih =>
    intro b hb hfold x hx
    rw [List.foldlM_cons] at hfold
    obtain ⟨b1, hb1⟩ := Option.isSome_iff_exists.mp hfold
    obtain ⟨bm, hbm, hrest⟩ := bindM_some hb1
    rcases List.mem_cons.mp hx with heq | hmem
    · subst heq
      exact ⟨b, hb, by rw [hbm]; rfl⟩
    · exact ih bm (hP _ _ _ hbm hb) (Option.isSome_iff_exists.mpr ⟨b1, hrest⟩) x hmem

/-- A monadic fold succeeds when every step on an element of the list
succeeds and preserves the invariant. -/
theorem foldlM_total {α β : Type} (f : β → α → Option β) (P : β → Prop)
    (Q : α → Prop) (hstep : ∀ b x, P b → Q x → ∃ b', f b x = some b' ∧ P b') :
    ∀ (l : List α) (b : β), P b → (∀ x ∈ l, Q x) →
      ∃ b', l.foldlM f b = some b' ∧ P b' := by
  intro l
  induction l with
  | nil =>
    intro b hb _
    exact ⟨b, rfl, hb⟩
  | cons a l ih =>
    intro b hb hQ
    obtain ⟨b1, hb1, hP1⟩ := hstep b a hb (hQ a (List.mem_cons_self a l))
    obtain ⟨b', hfold, hP'⟩ := ih b1 hP1 (fun x hx => hQ x (List.mem_cons_of_mem a hx))
    refine ⟨b', ?_, hP'⟩
    rw [List.foldlM_cons, hb1]
    exact hfold

/-- Whatever the board dimensions, a label array returned by the labelling
loop keeps the transposed `h × w` allocation shape. -/
theorem compute_tagsL_shape {grid : List (List (Option Orient))} {w h : Nat}
    {tags : List (List (Option Nat))} (hc : compute_tagsL grid w h = some tags) :
    shapeL tags h w := by
  unfold compute_tagsL at hc
  obtain ⟨st, hst, hpure⟩ := bindM_some hc
  cases Option.some.inj hpure
  exact foldlM_inv (tag_stepL grid w h) (fun st => shapeL st.1 h w)
    (fun b x b' hbx hb => tag_stepL_shape hbx hb) _ _ _ hst
    (replicate_shape h w none)

/-- On a square board the full labelling pass succeeds and returns an
`n × n` label array. -/
theorem compute_tagsL_total {grid : List (List (Option Orient))} {n : Nat}
    (hg : shapeL grid (n - 1) (n - 1)) :
    ∃ tags, compute_tagsL grid n n = some tags ∧ shapeL tags n n := by
  have hstep : ∀ (st : List (List (Option Nat)) × Nat) (pos : Nat × Nat),
      shapeL st.1 n n → (pos.1 < n ∧ pos.2 < n) →
      ∃ st', tag_stepL grid n n st pos = some st' ∧ shapeL st'.1 n n := by
    intro st pos hP hQ
    obtain ⟨st', hst'⟩ := Option.isSome_iff_exists.mp (tag_stepL_total hg hP hQ.1 hQ.2)
    exact ⟨st', hst', tag_stepL_shape hst' hP⟩
  obtain ⟨st, hfold, hP⟩ := foldlM_total (tag_stepL grid n n)
    (fun st => shapeL st.1 n n) (fun pos => pos.1 < n ∧ pos.2 < n) hstep
    (all_pos n n) (List.replicate n (List.replicate n none), 0)
    (replicate_shape n n none) (fun x hx => mem_all_pos.mp hx)
  refine ⟨st.1, ?_, hP⟩
  unfold compute_tagsL
  rw [hfold]
  rfl

/-- Every goal-boundary cell of an `n × n` board is in bounds. -/
theorem cells_bounds (s : Compass) {n : Nat} (hn : 1 ≤ n) :
    ∀ d ∈ Compass.cells s n n, d.1 < n ∧ d.2 < n := by
  intro d hd
  cases s <;>
    simp only [Compass.cells, List.mem_map, List.mem_range] at hd <;>
    obtain ⟨i, hi, rfl⟩ := hd
  · exact ⟨hi, show n - 1 < n by omega⟩
  · exact ⟨show 0 < n by omega, hi⟩
  · exact ⟨hi, show 0 < n by omega⟩
  · exact ⟨show n - 1 < n by omega, hi⟩

/-- The short-circuited goal-boundary scan succeeds when every cell it may
read is in bounds. -/
theorem all_neqL_total {tags : List (List (Option Nat))} {m k : Nat}
    (hsh : shapeL tags m k) {tag : Option Nat} :
    ∀ (ds : List (Nat × Nat)), (∀ d ∈ ds, d.1 < m ∧ d.2 < k) →
      (all_neqL tags tag ds).isSome := by
  intro ds
  induction ds with
  | nil =>
    intro _
    rfl
  | cons d ds ih =>
    intro hb
    have hd := hb d (List.mem_cons_self d ds)
    simp only [all_neqL]
    refine bindM_isSome (getE_isSome_of_bounds hsh hd.1 hd.2) ?_
    intro v hv
    split
    · exact ih (fun x hx => hb x (List.mem_cons_of_mem d hx))
    · rfl

/-- On a non-square board the list-model `is_blocking` raises: either a
dimension is zero and the pawn-label read fails on the empty allocation,
or the labelling loop's visit of `(w-1, h-1)` indexes the transposed
`h × w` allocation out of bounds. -/
theorem is_blockingL_nonsquare {w h : Nat} (grid : List (List (Option Orient)))
    (p : Pawn) (hne : w ≠ h) : is_blockingL w h grid p = none := by
  rcases Nat.eq_zero_or_pos h with hh | hh
  · subst hh
    rcases hc : compute_tagsL grid w 0 with _ | tags
    · unfold is_blockingL
      rw [hc]
      rfl
    · have hsh : shapeL tags 0 w := compute_tagsL_shape hc
      unfold is_blockingL
      rw [hc]
      show (getE tags p.pos.1 p.pos.2 >>= fun tag =>
        all_neqL tags tag (p.side.oppo.cells w 0)) = none
      rw [getE_none_of_zero_height hsh]
      rfl
  rcases Nat.eq_zero_or_pos w with hw | hw
  · subst hw
    rcases hc : compute_tagsL grid 0 h with _ | tags
    · unfold is_blockingL
      rw [hc]
      rfl
    · have hsh : shapeL tags h 0 := compute_tagsL_shape hc
      unfold is_blockingL
      rw [hc]
      show (getE tags p.pos.1 p.pos.2 >>= fun tag =>
        all_neqL tags tag (p.side.oppo.cells 0 h)) = none
      rw [getE_none_of_zero_width hsh]
      rfl
  have htags : compute_tagsL grid w h = none := by
    rcases hc : compute_tagsL grid w h with _ | tags
    · rfl
    · exfalso
      unfold compute_tagsL at hc
      obtain ⟨st, hst, -⟩ := bindM_some hc
      have hmem : (w - 1, h - 1) ∈ all_pos w h := by
        apply mem_all_pos.mpr
        constructor
        · show w - 1 < w
          omega
        · show h - 1 < h
          omega
      obtain ⟨b', hPb', hread⟩ := foldlM_some_of_mem (tag_stepL grid w h)
        (fun st => shapeL st.1 h w) (fun b x b' hbx hb => tag_stepL_shape hbx hb)
        (all_pos w h) (List.replicate h (List.replicate w none), 0)
        (replicate_shape h w none) (Option.isSome_iff_exists.mpr ⟨st, hst⟩)
        (w - 1, h - 1) hmem
      have hb := getE_some_bounds hPb' (tag_stepL_isSome_read hread)
      have hb1 : w - 1 < h := hb.1
      have hb2 : h - 1 < w := hb.2
      omega
  unfold is_blockingL
  rw [htags]
  rfl

/-- On a square board with the standard `(n-1) × (n-1)` fence grid and an
in-bounds pawn, every index access of the list-model `is_blocking` is in
bounds and a result is returned. -/
theorem is_blockingL_square {n : Nat} (grid : List (List (Option Orient))) (p : Pawn)
    (hn : 1 ≤ n) (hg : shapeL grid (n - 1) (n - 1)) (hx : p.pos.1 < n)
    (hy : p.pos.2 < n) : (is_blockingL n n grid p).isSome := by
  obtain ⟨tags, hc, hsh⟩ := compute_tagsL_total hg
  unfold is_blockingL
  rw [hc]
  show (getE tags p.pos.1 p.pos.2 >>= fun tag =>
    all_neqL tags tag (p.side.oppo.cells n n)).isSome
  refine bindM_isSome (getE_isSome_of_bounds hsh hx hy) ?_
  intro tag htag
  exact all_neqL_total hsh _ (cells_bounds p.side.oppo hn)

/-- C10: `is_blocking` (and hence `can_put_fence`, which calls it) is a
total, in-bounds-indexing operation exactly on square boards.  The label
grid is allocated `height × width` but indexed column-then-row, and the
flood fill reads its dimensions from the transposed allocation, so on
every board with `width ≠ height` the list-model `is_blocking` raises an
`IndexError` (`none`), while on a square board with the standard
`(n-1) × (n-1)` fence grid and an in-bounds pawn every index access is in
bounds and a result is returned. -/
theorem claim10_square_indexing :
    (∀ (w h : Nat) (grid : List (List (Option Orient))) (p : Pawn),
        w ≠ h → is_blockingL w h grid p = none) ∧
    (∀ (n : Nat) (grid : List (List (Option Orient))) (p : Pawn),
        1 ≤ n → shapeL grid (n - 1) (n - 1) → p.pos.1 < n → p.pos.2 < n →
        (is_blockingL n n grid p).isSome) :=
  ⟨fun _ _ grid p hne => is_blockingL_nonsquare grid p hne,
   fun _ grid p hn hg hx hy => is_blockingL_square grid p hn hg hx hy⟩

/-- The two halves of C10 at concrete inputs: a `2 × 3` board raises, a
`2 × 2` board with its empty `1 × 1` fence grid returns a result. -/
theorem claim10_witness :
    is_blockingL 2 3 (List.replicate 1 (List.replicate 2 none)) pawnS22 = none ∧
    (is_blockingL 2 2 (List.replicate 1 (List.replicate 1 none)) pawnS22).isSome :=
  ⟨claim10_square_indexing.1 2 3 (List.replicate 1 (List.replicate 2 none)) pawnS22
      (by decide),
   claim10_square_indexing.2 2 (List.replicate 1 (List.replicate 1 none)) pawnS22
      (by decide) (by decide) (by decide) (by decide)⟩
